import Mathlib

/-!
# Verification of the DXR HTML decoration pipeline (`dxr/build.py`)

This file gives a shallow embedding of the core of `dxr/build.py` — the
tag-stream builder, the overlap filter, the tag balancer, the line renderer,
the file indexer's ignore logic and the worker-pool range slicer — and proves
(or refutes) the specification claims about them.

Modelling conventions:
* Python byte/char offsets are `Int` (plugins hand in arbitrary integers;
  the code only asserts `end > 0`).
* Python object *identity* of tag payloads is modelled structurally: each
  `Region`/`Ref` payload carries a unique sequence number (`pid`) assigned at
  creation by `tag_boundaries`, and the per-file `Line` marker is the single
  constructor `Payload.line` — so two payloads are `=` exactly when the Python
  objects are `is`-identical.
* Python generators that can raise (`IndexError` on `opens[-1]`/`buffer[-1]`,
  `AssertionError`, the `NameError` in `remove_overlapping_refs` on an empty
  list) are modelled as `Option`-valued functions, `none` meaning the
  exception escapes.
* Text is `List Char`; `cgi.escape` and `str.strip` are modelled faithfully.
-/

namespace DXR

/-- The three tag payload variants of `build.py` (`Line`, `Region`, `Ref`).
`Region` carries its CSS class string, `Ref` its menu value (modelled as a
string, standing for the JSON-serializable menu); both carry the unique
sequence number standing for Python object identity. -/
inductive Payload where
  | line : Payload
  | region : Nat → List Char → Payload
  | ref : Nat → List Char → Payload
deriving DecidableEq, Repr

/-- A tag boundary `(offset, is_start, payload)` as produced by
`tag_boundaries`/`line_boundaries` and consumed by the rest of the pipeline. -/
structure Tag where
  point : Int
  isStart : Bool
  payload : Payload
deriving DecidableEq, Repr

/-- `Line.sort_order = 0`, `Ref.sort_order = 1`, `Region.sort_order = 2`
(class attributes in `build.py`). -/
def Payload.sort_order : Payload → Int
  | .line => 0
  | .ref _ _ => 1
  | .region _ _ => 2

/-- `nesting_order((point, is_start, payload))` from `build.py`: the sorting
key `(point, is_start, sort_order if is_start else -sort_order)`. Python
tuples compare lexicographically with `False < True`. -/
def nesting_order (t : Tag) : Int × Bool × Int :=
  (t.point, t.isStart,
    if t.isStart then t.payload.sort_order else -t.payload.sort_order)

/-- Lexicographic `≤` on the Python sort key (with `False < True`),
i.e. the order `tags.sort(key=nesting_order)` sorts by. -/
def keyLE : Int × Bool × Int → Int × Bool × Int → Bool
  | (p1, s1, r1), (p2, s2, r2) =>
    decide (p1 < p2) ||
      (decide (p1 = p2) &&
        ((!s1 && s2) || (decide (s1 = s2) && decide (r1 ≤ r2))))

/-- The order on tag boundaries induced by the `nesting_order` key. -/
def tagLE (a b : Tag) : Bool := keyLE (nesting_order a) (nesting_order b)

theorem keyLE_total (a b : Int × Bool × Int) : keyLE a b = true ∨ keyLE b a = true := by
  rcases a with ⟨p1, s1, r1⟩
  rcases b with ⟨p2, s2, r2⟩
  simp only [keyLE, Bool.or_eq_true, Bool.and_eq_true, decide_eq_true_eq,
    Bool.not_eq_true']
  rcases lt_trichotomy p1 p2 with h | h | h
  · exact Or.inl (Or.inl h)
  · subst h
    cases s1 <;> cases s2 <;> simp <;> omega
  · exact Or.inr (Or.inl h)

theorem keyLE_trans {a b c : Int × Bool × Int}
    (hab : keyLE a b = true) (hbc : keyLE b c = true) : keyLE a c = true := by
  rcases a with ⟨p1, s1, r1⟩
  rcases b with ⟨p2, s2, r2⟩
  rcases c with ⟨p3, s3, r3⟩
  simp only [keyLE, Bool.or_eq_true, Bool.and_eq_true, decide_eq_true_eq,
    Bool.not_eq_true'] at hab hbc ⊢
  cases s1 <;> cases s2 <;> cases s3 <;> simp_all <;> omega

theorem tagLE_total (a b : Tag) : tagLE a b = true ∨ tagLE b a = true :=
  keyLE_total _ _

theorem tagLE_trans {a b c : Tag} (hab : tagLE a b = true)
    (hbc : tagLE b c = true) : tagLE a c = true :=
  keyLE_trans hab hbc

theorem tagLE_refl (a : Tag) : tagLE a a = true := by
  rcases tagLE_total a a with h | h <;> exact h

/-- C5: the `nesting_order` key realizes the documented total preorder:
primary key the offset; at equal offsets every close sorts strictly before
every open; the tertiary rank is `Line = 0`, `Anchor/Ref = 1`, `Region = 2`,
negated on close, so among coincident opens a Line sorts (strictly) first,
i.e. outermost, and among coincident closes a Line sorts (strictly) last,
i.e. as the tag hugging the following line boundary; and the induced relation
`tagLE` is total, reflexive and transitive. -/
theorem c5_nesting_order :
    (∀ a b : Tag, tagLE a b = true ∨ tagLE b a = true) ∧
    (∀ a : Tag, tagLE a a = true) ∧
    (∀ a b c : Tag, tagLE a b = true → tagLE b c = true → tagLE a c = true) ∧
    (∀ a b : Tag, a.point < b.point → tagLE a b = true ∧ tagLE b a = false) ∧
    (∀ a b : Tag, a.point = b.point → a.isStart = false → b.isStart = true →
      tagLE a b = true ∧ tagLE b a = false) ∧
    (Payload.sort_order .line = 0 ∧
      (∀ n m, Payload.sort_order (.ref n m) = 1) ∧
      (∀ n c, Payload.sort_order (.region n c) = 2)) ∧
    (∀ t : Tag, nesting_order t =
      (t.point, t.isStart,
        if t.isStart then t.payload.sort_order else -t.payload.sort_order)) ∧
    (∀ a b : Tag, a.point = b.point → a.isStart = true → b.isStart = true →
      a.payload.sort_order < b.payload.sort_order →
      tagLE a b = true ∧ tagLE b a = false) ∧
    (∀ a b : Tag, a.point = b.point → a.isStart = false → b.isStart = false →
      b.payload.sort_order < a.payload.sort_order →
      tagLE a b = true ∧ tagLE b a = false) := by
  refine ⟨tagLE_total, tagLE_refl, fun a b c => tagLE_trans, ?_, ?_, ?_, ?_, ?_, ?_⟩
  · intro a b h
    constructor
    · simp [tagLE, keyLE, nesting_order, h]
    · simp only [tagLE, keyLE, nesting_order, Bool.or_eq_false_iff,
        Bool.and_eq_false_iff, decide_eq_false_iff_not, not_lt]
      constructor
      · exact le_of_lt h
      · left
        omega
  · intro a b hp hsa hsb
    constructor
    · simp [tagLE, keyLE, nesting_order, hp, hsa, hsb]
    · simp [tagLE, keyLE, nesting_order, hp, hsa, hsb] <;> omega
  · exact ⟨rfl, fun n m => rfl, fun n c => rfl⟩
  · intro t; rfl
  · intro a b hp hsa hsb hr
    constructor
    · simp [tagLE, keyLE, nesting_order, hp, hsa, hsb] <;> omega
    · simp [tagLE, keyLE, nesting_order, hp, hsa, hsb] <;> omega
  · intro a b hp hsa hsb hr
    constructor
    · simp [tagLE, keyLE, nesting_order, hp, hsa, hsb] <;> omega
    · simp [tagLE, keyLE, nesting_order, hp, hsa, hsb] <;> omega

/-- Witness for `c5_nesting_order`: the end-before-start and Line-outermost
facts at concrete boundaries. -/
theorem c5_nesting_order_witness :
    (tagLE ⟨3, false, .line⟩ ⟨3, true, .region 0 ['k']⟩ = true ∧
      tagLE ⟨3, true, .region 0 ['k']⟩ ⟨3, false, .line⟩ = false) ∧
    (tagLE ⟨3, true, .line⟩ ⟨3, true, .ref 1 ['m']⟩ = true ∧
      tagLE ⟨3, true, .ref 1 ['m']⟩ ⟨3, true, .line⟩ = false) :=
  ⟨c5_nesting_order.2.2.2.2.1 _ _ rfl rfl rfl,
   c5_nesting_order.2.2.2.2.2.2.2.1 _ _ rfl rfl rfl (by decide)⟩

/-! ## Line boundaries (`line_boundaries`, C6 and C10)

`line_boundaries` iterates `text.splitlines(True)`.  We model Python's
`unicode.splitlines` over `List Char`: it splits on `\n`, `\r`, `\r\n` and the
other line-break characters `splitlines` recognizes, keeping the terminators,
and the final line may lack a terminator. -/

/-- The line-break characters recognized by Python's `unicode.splitlines`. -/
def isLineBreakChar (c : Char) : Bool :=
  c = '\n' || c = '\r' || c = '\x0b' || c = '\x0c' ||
  c = '\x1c' || c = '\x1d' || c = '\x1e' || c = '\x85' ||
  c = '\u2028' || c = '\u2029'

/-- Split off the first line (with its terminator) of a nonempty text;
`\r\n` counts as a single terminator. -/
def splitFirstLine : List Char → List Char × List Char
  | [] => ([], [])
  | c :: cs =>
    if c = '\r' then
      match cs with
      | d :: rest => if d = '\n' then (['\r', '\n'], rest) else (['\r'], d :: rest)
      | [] => (['\r'], [])
    else if isLineBreakChar c then ([c], cs)
    else
      let p := splitFirstLine cs
      (c :: p.1, p.2)

theorem splitFirstLine_append (cs : List Char) :
    (splitFirstLine cs).1 ++ (splitFirstLine cs).2 = cs := by
  induction cs with
  | nil => rfl
  | cons c cs ih =>
    by_cases hc : c = '\r'
    · subst hc
      cases cs with
      | nil => rfl
      | cons d rest =>
        by_cases hd : d = '\n'
        · subst hd; simp [splitFirstLine]
        · simp [splitFirstLine, hd]
    · by_cases hb : isLineBreakChar c
      · simp [splitFirstLine, hc, hb]
      · simp only [splitFirstLine, if_neg hc, hb, if_neg, Bool.false_eq_true,
          not_false_iff]
        simpa using ih

theorem splitFirstLine_fst_ne_nil (c : Char) (cs : List Char) :
    (splitFirstLine (c :: cs)).1 ≠ [] := by
  by_cases hc : c = '\r'
  · subst hc
    cases cs with
    | nil => simp [splitFirstLine]
    | cons d rest =>
      by_cases hd : d = '\n'
      · subst hd; simp [splitFirstLine]
      · simp [splitFirstLine, hd]
  · by_cases hb : isLineBreakChar c
    · simp [splitFirstLine, hc, hb]
    · simp [splitFirstLine, hc, hb]

theorem splitFirstLine_snd_length (c : Char) (cs : List Char) :
    (splitFirstLine (c :: cs)).2.length < (c :: cs).length := by
  have happ := splitFirstLine_append (c :: cs)
  have hne := splitFirstLine_fst_ne_nil c cs
  have : (splitFirstLine (c :: cs)).1.length + (splitFirstLine (c :: cs)).2.length
      = (c :: cs).length := by
    rw [← List.length_append, happ]
  have : 1 ≤ (splitFirstLine (c :: cs)).1.length := by
    cases h : (splitFirstLine (c :: cs)).1 with
    | nil => exact absurd h hne
    | cons a l => simp
  omega

/-- Python's `text.splitlines(True)` (keep the terminators). -/
def splitlinesKeep : List Char → List (List Char)
  | [] => []
  | c :: cs =>
    (splitFirstLine (c :: cs)).1 :: splitlinesKeep (splitFirstLine (c :: cs)).2
termination_by l => l.length
decreasing_by exact splitFirstLine_snd_length c cs

theorem splitlinesKeep_flatten (text : List Char) :
    (splitlinesKeep text).flatten = text := by
  induction text using splitlinesKeep.induct with
  | case1 => rw [splitlinesKeep]; rfl
  | case2 c cs ih =>
    rw [splitlinesKeep]
    simp only [List.flatten_cons, ih, splitFirstLine_append]

theorem splitlinesKeep_ne_nil (text : List Char) :
    ∀ l ∈ splitlinesKeep text, l ≠ [] := by
  induction text using splitlinesKeep.induct with
  | case1 => rw [splitlinesKeep]; intro l hl; simp at hl
  | case2 c cs ih =>
    intro l hl
    rw [splitlinesKeep] at hl
    rcases List.mem_cons.mp hl with hl | hl
    · exact hl ▸ splitFirstLine_fst_ne_nil c cs
    · exact ih l hl

/-- The body of `line_boundaries`: starting from offset `upTo`, for each line
yield `(up_to, True, marker)` and `(up_to + len(line), False, marker)`. -/
def lineBoundsGo : Int → List (List Char) → List Tag
  | _, [] => []
  | upTo, l :: ls =>
    ⟨upTo, true, .line⟩ :: ⟨upTo + l.length, false, .line⟩ ::
      lineBoundsGo (upTo + l.length) ls

/-- `line_boundaries(text)` from `build.py`: one shared `Line()` marker, and
for each line of `text.splitlines(True)` an open at the line's start offset
and a close right after its terminator. -/
def line_boundaries (text : List Char) : List Tag :=
  lineBoundsGo 0 (splitlinesKeep text)

/-- Cumulative start offset of line `i` in a list of kept-terminator lines. -/
def lineStart (ls : List (List Char)) (i : Nat) : Int :=
  ((ls.take i).map (fun l => (l.length : Int))).sum

theorem lineBoundsGo_length (u : Int) (ls : List (List Char)) :
    (lineBoundsGo u ls).length = 2 * ls.length := by
  induction ls generalizing u with
  | nil => rfl
  | cons l ls ih => simp [lineBoundsGo, ih]; omega

theorem lineStart_cons_succ (l0 : List Char) (ls : List (List Char)) (j : Nat) :
    lineStart (l0 :: ls) (j + 1) = (l0.length : Int) + lineStart ls j := by
  simp [lineStart, List.take_succ_cons]

theorem lineBoundsGo_get (u : Int) (ls : List (List Char)) :
    ∀ i l, ls[i]? = some l →
      (lineBoundsGo u ls)[2 * i]? = some ⟨u + lineStart ls i, true, .line⟩ ∧
      (lineBoundsGo u ls)[2 * i + 1]? =
        some ⟨u + lineStart ls i + l.length, false, .line⟩ := by
  induction ls generalizing u with
  | nil => intro i l h; simp at h
  | cons l0 ls ih =>
    intro i l h
    cases i with
    | zero =>
      simp only [List.getElem?_cons_zero, Option.some.injEq] at h
      subst h
      simp [lineBoundsGo, lineStart]
    | succ j =>
      simp only [List.getElem?_cons_succ] at h
      have hih := ih (u + l0.length) j l h
      constructor
      · have h2 : 2 * (j + 1) = 2 * j + 1 + 1 := by omega
        rw [h2]
        simp only [lineBoundsGo, List.getElem?_cons_succ]
        rw [lineStart_cons_succ,
          show u + ((l0.length : Int) + lineStart ls j)
              = u + l0.length + lineStart ls j from by ring]
        exact hih.1
      · have h2 : 2 * (j + 1) + 1 = 2 * j + 1 + 1 + 1 := by omega
        rw [h2]
        simp only [lineBoundsGo, List.getElem?_cons_succ]
        rw [lineStart_cons_succ,
          show u + ((l0.length : Int) + lineStart ls j) + l.length
              = u + l0.length + lineStart ls j + l.length from by ring]
        exact hih.2

theorem getLast?_cons_ne {α : Type} (a : α) (l : List α) (h : l ≠ []) :
    (a :: l).getLast? = l.getLast? := by
  cases l with
  | nil => exact absurd rfl h
  | cons b m => exact List.getLast?_cons_cons

theorem lineBoundsGo_getLast (u : Int) (ls : List (List Char)) (h : ls ≠ []) :
    (lineBoundsGo u ls).getLast? =
      some ⟨u + ((ls.map (fun l => (l.length : Int))).sum), false, .line⟩ := by
  induction ls generalizing u with
  | nil => exact absurd rfl h
  | cons l0 ls ih =>
    cases ls with
    | nil => simp [lineBoundsGo]
    | cons l1 ls' =>
      have hstep : lineBoundsGo u (l0 :: l1 :: ls')
          = Tag.mk u true .line :: Tag.mk (u + l0.length) false .line ::
              lineBoundsGo (u + l0.length) (l1 :: ls') := rfl
      have hne : lineBoundsGo (u + (l0.length : Int)) (l1 :: ls') ≠ [] := by
        simp [lineBoundsGo]
      rw [hstep, getLast?_cons_ne _ _ (by simp), getLast?_cons_ne _ _ hne,
        ih (u + l0.length) (by simp)]
      have harith : u + (l0.length : Int) +
            ((l1 :: ls').map (fun l => (l.length : Int))).sum
          = u + ((l0 :: l1 :: ls').map (fun l => (l.length : Int))).sum := by
        simp
        ring
      rw [harith]

theorem sum_intCast_length (ls : List (List Char)) :
    (ls.map (fun l => (l.length : Int))).sum = ((ls.map List.length).sum : Int) := by
  induction ls with
  | nil => rfl
  | cons a t ih => simp [ih]

/-- C6: for every text, `line_boundaries` emits exactly one Line open and one
Line close per line of `text.splitlines(True)`: the open at the line's
cumulative start offset and the close at the offset just past the line's
terminator (the start plus the kept-terminator length), so the last close
sits at the length of the text; the empty text produces no boundaries. -/
theorem c6_line_boundaries (text : List Char) :
    (line_boundaries text).length = 2 * (splitlinesKeep text).length ∧
    (∀ i l, (splitlinesKeep text)[i]? = some l →
      (line_boundaries text)[2 * i]? =
        some ⟨lineStart (splitlinesKeep text) i, true, .line⟩ ∧
      (line_boundaries text)[2 * i + 1]? =
        some ⟨lineStart (splitlinesKeep text) i + l.length, false, .line⟩) ∧
    (text = [] → line_boundaries text = []) ∧
    (text ≠ [] →
      (line_boundaries text).getLast? =
        some ⟨(text.length : Int), false, .line⟩) := by
  refine ⟨lineBoundsGo_length 0 _, ?_, ?_, ?_⟩
  · intro i l h
    have := lineBoundsGo_get 0 (splitlinesKeep text) i l h
    simpa using this
  · intro h; subst h; rw [line_boundaries, splitlinesKeep]; rfl
  · intro h
    have hne : splitlinesKeep text ≠ [] := by
      intro hc
      have := splitlinesKeep_flatten text
      rw [hc] at this
      exact h this.symm
    rw [line_boundaries, lineBoundsGo_getLast 0 _ hne]
    have hN : ((splitlinesKeep text).map List.length).sum = text.length := by
      conv_rhs => rw [← splitlinesKeep_flatten text]
      rw [List.length_flatten]
    have hZ : ((splitlinesKeep text).map (fun l => (l.length : Int))).sum
        = (text.length : Int) := by
      rw [sum_intCast_length, hN]
    rw [show (0 : Int) + ((splitlinesKeep text).map (fun l => (l.length : Int))).sum
        = ((splitlinesKeep text).map (fun l => (l.length : Int))).sum from by ring, hZ]

theorem splitlinesKeep_an : splitlinesKeep ['a', '\n'] = [['a', '\n']] := by
  have h1 : splitFirstLine ['a', '\n'] = (['a', '\n'], []) := by decide
  rw [splitlinesKeep, h1]
  show ['a', '\n'] :: splitlinesKeep [] = [['a', '\n']]
  rw [splitlinesKeep]

/-- Witness for `c6_line_boundaries` at `text = "a\n"`. -/
theorem c6_line_boundaries_witness :
    (line_boundaries ['a', '\n'])[2 * 0]? = some ⟨0, true, .line⟩ ∧
    (line_boundaries ['a', '\n'])[2 * 0 + 1]? = some ⟨2, false, .line⟩ ∧
    (line_boundaries ['a', '\n']).getLast? = some ⟨2, false, .line⟩ := by
  have h := c6_line_boundaries ['a', '\n']
  have h1 := h.2.1 0 ['a', '\n'] (by rw [splitlinesKeep_an]; rfl)
  have h2 := h.2.2.2 (by decide)
  refine ⟨?_, ?_, ?_⟩
  · rw [h1.1]
    simp [lineStart]
  · rw [h1.2]
    simp [lineStart]
  · rw [h2]
    rfl

theorem lineBoundsGo_payload (u : Int) (ls : List (List Char)) :
    ∀ t ∈ lineBoundsGo u ls, t.payload = .line := by
  induction ls generalizing u with
  | nil => intro t ht; simp [lineBoundsGo] at ht
  | cons l ls ih =>
    intro t ht
    rcases List.mem_cons.mp ht with h | ht
    · rw [h]
    · rcases List.mem_cons.mp ht with h | ht
      · rw [h]
      · exact ih (u + l.length) t ht

theorem lineStart_succ (ls : List (List Char)) (i : Nat) (l : List Char)
    (h : ls[i]? = some l) :
    lineStart ls (i + 1) = lineStart ls i + l.length := by
  induction ls generalizing i with
  | nil => simp at h
  | cons l0 ls ih =>
    cases i with
    | zero =>
      simp only [List.getElem?_cons_zero, Option.some.injEq] at h
      subst h
      simp [lineStart, lineStart_cons_succ]
    | succ j =>
      simp only [List.getElem?_cons_succ] at h
      rw [lineStart_cons_succ, lineStart_cons_succ, ih j h]
      ring

theorem lineBoundsGo_chain (u : Int) (ls : List (List Char))
    (h : ∀ l ∈ ls, l ≠ []) :
    List.Chain' (fun a b => tagLE a b = true) (lineBoundsGo u ls) := by
  induction ls generalizing u with
  | nil => simp [lineBoundsGo]
  | cons l ls ih =>
    have hl : 1 ≤ l.length := by
      have := h l (by simp)
      cases hc : l with
      | nil => exact absurd hc this
      | cons a m => simp
    have hopen : tagLE ⟨u, true, .line⟩ ⟨u + l.length, false, .line⟩ = true := by
      simp [tagLE, keyLE, nesting_order]
      omega
    cases ls with
    | nil =>
      simp only [lineBoundsGo]
      exact List.chain'_cons.mpr ⟨hopen, List.chain'_singleton _⟩
    | cons l1 ls' =>
      have hnext : lineBoundsGo (u + (l.length : Int)) (l1 :: ls')
          = Tag.mk (u + l.length) true .line ::
            Tag.mk (u + l.length + l1.length) false .line ::
              lineBoundsGo (u + l.length + l1.length) ls' := rfl
      have hclose : tagLE ⟨u + (l.length : Int), false, .line⟩
          ⟨u + l.length, true, .line⟩ = true := by
        simp [tagLE, keyLE, nesting_order]
      have hrest := ih (u + l.length) (fun x hx => h x (List.mem_cons_of_mem _ hx))
      rw [show lineBoundsGo u (l :: l1 :: ls')
          = Tag.mk u true .line :: Tag.mk (u + l.length) false .line ::
              lineBoundsGo (u + l.length) (l1 :: ls') from rfl]
      refine List.chain'_cons.mpr ⟨hopen, ?_⟩
      rw [hnext]
      rw [hnext] at hrest
      exact List.chain'_cons.mpr ⟨hclose, hrest⟩

/-- C10: `line_boundaries` allocates one shared `Line` marker per file and
every line's open and close boundary carries that same marker, so Line payload
identity does not distinguish lines; consecutive lines' boundaries are
coincident (the close offset of line `i` equals the open offset of line
`i+1`); and the emitted stream is already sorted for the `nesting_order` key
and strictly alternates open/close, so each Line close is immediately
preceded (in stream order) by the open it matches. -/
theorem c10_line_marker_identity (text : List Char) :
    (∀ t ∈ line_boundaries text, t.payload = .line) ∧
    (∀ i t u, (line_boundaries text)[2 * i + 1]? = some t →
      (line_boundaries text)[2 * i + 2]? = some u →
      t.point = u.point ∧ t.isStart = false ∧ u.isStart = true) ∧
    List.Chain' (fun a b => tagLE a b = true) (line_boundaries text) ∧
    (∀ i t, (line_boundaries text)[2 * i + 1]? = some t →
      ∃ o, (line_boundaries text)[2 * i]? = some o ∧ o.isStart = true ∧
        t.isStart = false ∧ o.payload = t.payload) := by
  have hlen : (line_boundaries text).length = 2 * (splitlinesKeep text).length :=
    lineBoundsGo_length 0 _
  refine ⟨lineBoundsGo_payload 0 _, ?_, ?_, ?_⟩
  · intro i t u h1 h2
    have hi2 : 2 * i + 2 < (line_boundaries text).length := by
      rcases List.getElem?_eq_some_iff.mp h2 with ⟨hw, _⟩
      exact hw
    have hiL : i < (splitlinesKeep text).length := by omega
    have hi1L : i + 1 < (splitlinesKeep text).length := by omega
    have hgi : (splitlinesKeep text)[i]? = some ((splitlinesKeep text)[i]) :=
      List.getElem?_eq_getElem hiL
    have hgi1 : (splitlinesKeep text)[i + 1]? =
        some ((splitlinesKeep text)[i + 1]) :=
      List.getElem?_eq_getElem hi1L
    have g1 := lineBoundsGo_get 0 (splitlinesKeep text) i _ hgi
    have g2 := lineBoundsGo_get 0 (splitlinesKeep text) (i + 1) _ hgi1
    rw [line_boundaries] at h1 h2
    rw [g1.2] at h1
    have h2' : (lineBoundsGo 0 (splitlinesKeep text))[2 * (i + 1)]? = some u := by
      rw [show 2 * (i + 1) = 2 * i + 2 from by omega]
      exact h2
    rw [g2.1] at h2'
    have ht := Option.some.inj h1
    have hu := Option.some.inj h2'
    subst ht; subst hu
    refine ⟨?_, rfl, rfl⟩
    simp only
    rw [lineStart_succ (splitlinesKeep text) i _ hgi]
    ring
  · exact lineBoundsGo_chain 0 _ (splitlinesKeep_ne_nil text)
  · intro i t h1
    have hi1 : 2 * i + 1 < (line_boundaries text).length := by
      rcases List.getElem?_eq_some_iff.mp h1 with ⟨hw, _⟩
      exact hw
    have hiL : i < (splitlinesKeep text).length := by omega
    have hgi : (splitlinesKeep text)[i]? = some ((splitlinesKeep text)[i]) :=
      List.getElem?_eq_getElem hiL
    have g := lineBoundsGo_get 0 (splitlinesKeep text) i _ hgi
    rw [line_boundaries] at h1 ⊢
    rw [g.2] at h1
    have ht := Option.some.inj h1
    subst ht
    exact ⟨_, g.1, rfl, rfl, rfl⟩

theorem splitlinesKeep_anb :
    splitlinesKeep ['a', '\n', 'b'] = [['a', '\n'], ['b']] := by
  have h1 : splitFirstLine ['a', '\n', 'b'] = (['a', '\n'], ['b']) := by decide
  have h2 : splitFirstLine ['b'] = (['b'], []) := by decide
  rw [splitlinesKeep, h1]
  show ['a', '\n'] :: splitlinesKeep ['b'] = _
  rw [splitlinesKeep, h2]
  show ['a', '\n'] :: (['b'] :: splitlinesKeep []) = _
  rw [splitlinesKeep]

/-- Witness for `c10_line_marker_identity` on `"a\nb"`: line 1's close at
offset 2 coincides with line 2's open, and the close at index 1 is paired
with the open at index 0 carrying the same shared marker. -/
theorem c10_line_marker_identity_witness :
    (Tag.mk 2 false Payload.line).point = (Tag.mk 2 true Payload.line).point ∧
      (Tag.mk 2 false Payload.line).isStart = false ∧
      (Tag.mk 2 true Payload.line).isStart = true := by
  have hlb : line_boundaries ['a', '\n', 'b']
      = [⟨0, true, .line⟩, ⟨2, false, .line⟩, ⟨2, true, .line⟩, ⟨3, false, .line⟩] := by
    rw [line_boundaries, splitlinesKeep_anb]
    rfl
  exact (c10_line_marker_identity ['a', '\n', 'b']).2.1 0
    ⟨2, false, .line⟩ ⟨2, true, .line⟩ (by rw [hlb]; rfl) (by rw [hlb]; rfl)

/-! ## Tag boundaries from plugin intervals (`tag_boundaries`, C3)

`tag_boundaries` iterates each htmlifier's `regions()` and `refs()`,
asserting `start is not None`, `end is not None` and `end > 0` — note that it
does *not* assert `end > start` — and yields an open and a close boundary
carrying one fresh tag object per interval. -/

/-- A plugin interval `(start, end, data)`; `stop` stands for Python's `end`.
`Option` models `None`. -/
structure Interval where
  start : Option Int
  stop : Option Int
  data : List Char
deriving DecidableEq, Repr

/-- A file htmlifier: its `regions()` and `refs()` sequences. -/
structure Htmlifier where
  regions : List Interval
  refs : List Interval
deriving DecidableEq, Repr

/-- One interval list of `tag_boundaries`: check the three assertions
(`start is not None`, `end is not None`, `end > 0`), then yield
`(start, True, tag)` and `(end, False, tag)` with a fresh payload (sequence
number `n` models the fresh Python object `cls(data)`). -/
def tagsOfIntervals (mk : Nat → List Char → Payload) :
    Nat → List Interval → Option (List Tag × Nat)
  | n, [] => some ([], n)
  | n, ⟨some s, some e, d⟩ :: rest =>
    if 0 < e then
      (tagsOfIntervals mk (n + 1) rest).map fun p =>
        (⟨s, true, mk n d⟩ :: ⟨e, false, mk n d⟩ :: p.1, p.2)
    else none
  | _, ⟨none, _, _⟩ :: _ => none
  | _, ⟨some _, none, _⟩ :: _ => none

def tagBoundariesGo : Nat → List Htmlifier → Option (List Tag)
  | _, [] => some []
  | n, h :: rest =>
    (tagsOfIntervals (fun i d => .region i d) n h.regions).bind fun rp =>
      (tagsOfIntervals (fun i d => .ref i d) rp.2 h.refs).bind fun fp =>
        (tagBoundariesGo fp.2 rest).map fun ts => rp.1 ++ (fp.1 ++ ts)

/-- `tag_boundaries(htmlifiers)` from `build.py`, `none` modelling an
`AssertionError` escaping (the stream is consumed eagerly by `list(...)`). -/
def tag_boundaries (hs : List Htmlifier) : Option (List Tag) :=
  tagBoundariesGo 0 hs

/-- An interval the code's assertions actually reject: a `None` endpoint or
`end ≤ 0`. -/
def BadIv (iv : Interval) : Prop :=
  iv.start = none ∨ iv.stop = none ∨ ∃ e, iv.stop = some e ∧ e ≤ 0

/-- All intervals fed to `tag_boundaries`, in iteration order. -/
def allIntervals (hs : List Htmlifier) : List Interval :=
  hs.flatMap fun h => h.regions ++ h.refs

theorem tagsOfIntervals_none_iff (mk : Nat → List Char → Payload) (n : Nat)
    (ivs : List Interval) :
    tagsOfIntervals mk n ivs = none ↔ ∃ iv ∈ ivs, BadIv iv := by
  induction ivs generalizing n with
  | nil => simp [tagsOfIntervals]
  | cons iv rest ih =>
    rcases iv with ⟨os, oe, d⟩
    cases os with
    | none =>
      rw [show tagsOfIntervals mk n (⟨none, oe, d⟩ :: rest) = none from rfl]
      exact iff_of_true rfl ⟨⟨none, oe, d⟩, by simp, Or.inl rfl⟩
    | some s =>
      cases oe with
      | none =>
        rw [show tagsOfIntervals mk n (⟨some s, none, d⟩ :: rest) = none from rfl]
        exact iff_of_true rfl ⟨⟨some s, none, d⟩, by simp, Or.inr (Or.inl rfl)⟩
      | some e =>
        rw [tagsOfIntervals]
        by_cases hpos : 0 < e
        · rw [if_pos hpos]
          constructor
          · intro hnone
            have hrest : tagsOfIntervals mk (n + 1) rest = none := by
              cases hrec : tagsOfIntervals mk (n + 1) rest with
              | none => rfl
              | some p => rw [hrec] at hnone; simp at hnone
            rcases (ih (n + 1)).mp hrest with ⟨iv2, hmem, hbad⟩
            exact ⟨iv2, List.mem_cons_of_mem _ hmem, hbad⟩
          · intro hex
            rcases hex with ⟨iv2, hmem, hbad⟩
            rcases List.mem_cons.mp hmem with heq | hmem2
            · exfalso
              subst heq
              rcases hbad with hb | hb | hb
              · cases hb
              · cases hb
              · rcases hb with ⟨e2, he2, hle⟩
                have : e = e2 := Option.some.inj he2
                omega
            · rw [(ih (n + 1)).mpr ⟨iv2, hmem2, hbad⟩]
              rfl
        · rw [if_neg hpos]
          exact iff_of_true rfl
            ⟨⟨some s, some e, d⟩, by simp, Or.inr (Or.inr ⟨e, rfl, by omega⟩)⟩

theorem tagsOfIntervals_mem (mk : Nat → List Char → Payload) (n : Nat)
    (ivs : List Interval) (ts : List Tag) (m : Nat)
    (h : tagsOfIntervals mk n ivs = some (ts, m)) :
    ∀ iv ∈ ivs, ∃ s e k, iv.start = some s ∧ iv.stop = some e ∧
      Tag.mk s true (mk k iv.data) ∈ ts ∧ Tag.mk e false (mk k iv.data) ∈ ts := by
  induction ivs generalizing n ts with
  | nil => intro iv hiv; simp at hiv
  | cons iv0 rest ih =>
    intro iv hiv
    rcases iv0 with ⟨os, oe, d⟩
    cases os with
    | none =>
      rw [show tagsOfIntervals mk n (⟨none, oe, d⟩ :: rest) = none from rfl] at h
      cases h
    | some s =>
      cases oe with
      | none =>
        rw [show tagsOfIntervals mk n (⟨some s, none, d⟩ :: rest) = none from rfl] at h
        cases h
      | some e =>
        rw [tagsOfIntervals] at h
        by_cases hpos : 0 < e
        · rw [if_pos hpos] at h
          cases hrec : tagsOfIntervals mk (n + 1) rest with
          | none => rw [hrec] at h; cases h
          | some p =>
            rcases p with ⟨pts, pm⟩
            rw [hrec] at h
            have hpair : (Tag.mk s true (mk n d) :: Tag.mk e false (mk n d) :: pts, pm)
                = (ts, m) := Option.some.inj h
            have hts : Tag.mk s true (mk n d) :: Tag.mk e false (mk n d) :: pts = ts :=
              congrArg Prod.fst hpair
            have hpm : pm = m := congrArg Prod.snd hpair
            rcases List.mem_cons.mp hiv with heq | hmem2
            · subst heq
              exact ⟨s, e, n, rfl, rfl, by rw [← hts]; simp, by rw [← hts]; simp⟩
            · have hp : tagsOfIntervals mk (n + 1) rest = some (pts, m) := by
                rw [hrec, hpm]
              rcases ih (n + 1) pts hp iv hmem2 with ⟨s2, e2, k2, h1, h2, h3, h4⟩
              exact ⟨s2, e2, k2, h1, h2, by rw [← hts]; simp [h3],
                by rw [← hts]; simp [h4]⟩
        · rw [if_neg hpos] at h; cases h

/-- C3 counterexample: the claim says any interval with `end ≤ start`
(e.g. the zero-length `[2,2)`) makes `tag_boundaries` fail an assertion.  In
the code the only offset assertions are `start is not None`, `end is not None`
and `end > 0`, so the zero-length interval `[2,2)` passes them and both of its
boundaries are emitted — no assertion fires. -/
theorem c3_counterexample :
    tag_boundaries [⟨[⟨some 2, some 2, ['k']⟩], []⟩] =
      some [⟨2, true, .region 0 ['k']⟩, ⟨2, false, .region 0 ['k']⟩] := by
  decide

theorem tagBoundariesGo_none_iff :
    ∀ (hs : List Htmlifier) (n : Nat),
      tagBoundariesGo n hs = none ↔ ∃ iv ∈ allIntervals hs, BadIv iv := by
  intro hs
  induction hs with
  | nil =>
    intro n
    rw [tagBoundariesGo]
    constructor
    · intro hc; cases hc
    · intro hex
      rcases hex with ⟨iv, hm, _⟩
      rw [allIntervals] at hm
      simp at hm
  | cons h rest ih =>
    intro n
    rw [tagBoundariesGo]
    have hmemhead : ∀ iv : Interval, iv ∈ h.regions ∨ iv ∈ h.refs →
        iv ∈ allIntervals (h :: rest) := by
      intro iv hiv
      simp only [allIntervals, List.flatMap_cons, List.mem_append]
      tauto
    cases hr : tagsOfIntervals (fun i d => .region i d) n h.regions with
    | none =>
      rcases (tagsOfIntervals_none_iff _ n h.regions).mp hr with ⟨iv, hm, hb⟩
      exact iff_of_true rfl ⟨iv, hmemhead iv (Or.inl hm), hb⟩
    | some p1 =>
      simp only [Option.some_bind]
      cases hf : tagsOfIntervals (fun i d => .ref i d) p1.2 h.refs with
      | none =>
        rcases (tagsOfIntervals_none_iff _ p1.2 h.refs).mp hf with ⟨iv, hm, hb⟩
        exact iff_of_true rfl ⟨iv, hmemhead iv (Or.inr hm), hb⟩
      | some p2 =>
        simp only [Option.some_bind]
        constructor
        · intro hnone
          have hrec : tagBoundariesGo p2.2 rest = none := by
            cases hq : tagBoundariesGo p2.2 rest with
            | none => rfl
            | some ts => rw [hq] at hnone; simp at hnone
          rcases (ih p2.2).mp hrec with ⟨iv, hm, hb⟩
          refine ⟨iv, ?_, hb⟩
          simp only [allIntervals, List.flatMap_cons, List.mem_append] at hm ⊢
          tauto
        · intro hex
          rcases hex with ⟨iv, hm, hb⟩
          have hsplit : iv ∈ h.regions ∨ iv ∈ h.refs ∨ iv ∈ allIntervals rest := by
            simp only [allIntervals, List.flatMap_cons, List.mem_append] at hm ⊢
            tauto
          rcases hsplit with hm2 | hm2 | hm2
          · exfalso
            have hbadr := (tagsOfIntervals_none_iff
              (fun i d => .region i d) n h.regions).mpr ⟨iv, hm2, hb⟩
            rw [hbadr] at hr; cases hr
          · exfalso
            have hbadf := (tagsOfIntervals_none_iff
              (fun i d => .ref i d) p1.2 h.refs).mpr ⟨iv, hm2, hb⟩
            rw [hbadf] at hf; cases hf
          · rw [(ih p2.2).mpr ⟨iv, hm2, hb⟩]
            rfl

theorem tagBoundariesGo_mem :
    ∀ (hs : List Htmlifier) (n : Nat) (ts : List Tag),
      tagBoundariesGo n hs = some ts →
      ∀ iv ∈ allIntervals hs, ∃ s e p, iv.start = some s ∧ iv.stop = some e ∧
        Tag.mk s true p ∈ ts ∧ Tag.mk e false p ∈ ts := by
  intro hs
  induction hs with
  | nil =>
    intro n ts hok iv hiv
    rw [allIntervals] at hiv
    simp at hiv
  | cons h rest ih =>
    intro n ts hok iv hiv
    rw [tagBoundariesGo] at hok
    cases hr : tagsOfIntervals (fun i d => .region i d) n h.regions with
    | none => rw [hr] at hok; cases hok
    | some p1 =>
      rw [hr] at hok
      simp only [Option.some_bind] at hok
      cases hf : tagsOfIntervals (fun i d => .ref i d) p1.2 h.refs with
      | none => rw [hf] at hok; cases hok
      | some p2 =>
        rw [hf] at hok
        simp only [Option.some_bind] at hok
        cases hq : tagBoundariesGo p2.2 rest with
        | none => rw [hq] at hok; cases hok
        | some ts2 =>
          rw [hq] at hok
          have hok2 : p1.1 ++ (p2.1 ++ ts2) = ts := Option.some.inj hok
          rw [← hok2]
          have hsplit : iv ∈ h.regions ∨ iv ∈ h.refs ∨ iv ∈ allIntervals rest := by
            simp only [allIntervals, List.flatMap_cons, List.mem_append] at hiv ⊢
            tauto
          rcases hsplit with hm | hm | hm
          · rcases tagsOfIntervals_mem _ n h.regions p1.1 p1.2 (by
                rw [hr]) iv hm with ⟨s, e, k, h1, h2, h3, h4⟩
            exact ⟨s, e, _, h1, h2, List.mem_append.mpr (Or.inl h3),
              List.mem_append.mpr (Or.inl h4)⟩
          · rcases tagsOfIntervals_mem _ p1.2 h.refs p2.1 p2.2 (by
                rw [hf]) iv hm with ⟨s, e, k, h1, h2, h3, h4⟩
            exact ⟨s, e, _, h1, h2,
              List.mem_append.mpr (Or.inr (List.mem_append.mpr (Or.inl h3))),
              List.mem_append.mpr (Or.inr (List.mem_append.mpr (Or.inl h4)))⟩
          · rcases ih p2.2 ts2 hq iv hm with ⟨s, e, p, h1, h2, h3, h4⟩
            exact ⟨s, e, p, h1, h2,
              List.mem_append.mpr (Or.inr (List.mem_append.mpr (Or.inr h3))),
              List.mem_append.mpr (Or.inr (List.mem_append.mpr (Or.inr h4)))⟩

/-- C3 (amended): `tag_boundaries` fails an assertion exactly when some
interval has a `None` endpoint or `end ≤ 0`; intervals with `end ≤ start` but
`end > 0` (such as `[2,2)` or `(5,3)`) are *not* rejected; and whenever no
assertion fires — in particular for every well-formed interval with
`0 ≤ start < end` — each interval's open and close boundary is emitted with a
shared fresh payload. -/
theorem c3_tag_boundaries_amended (hs : List Htmlifier) :
    (tag_boundaries hs = none ↔ ∃ iv ∈ allIntervals hs, BadIv iv) ∧
    (∀ ts, tag_boundaries hs = some ts →
      ∀ iv ∈ allIntervals hs, ∃ s e p, iv.start = some s ∧ iv.stop = some e ∧
        Tag.mk s true p ∈ ts ∧ Tag.mk e false p ∈ ts) :=
  ⟨tagBoundariesGo_none_iff hs 0, fun ts h => tagBoundariesGo_mem hs 0 ts h⟩

/-- Witness for `c3_tag_boundaries_amended`: the well-formed interval `[0,2)`
is emitted without any assertion failing. -/
theorem c3_tag_boundaries_amended_witness :
    ∃ s e p, (Interval.mk (some 0) (some 2) ['k']).start = some s ∧
      (Interval.mk (some 0) (some 2) ['k']).stop = some e ∧
      Tag.mk s true p ∈ [Tag.mk 0 true (.region 0 ['k']), Tag.mk 2 false (.region 0 ['k'])] ∧
      Tag.mk e false p ∈ [Tag.mk 0 true (.region 0 ['k']), Tag.mk 2 false (.region 0 ['k'])] :=
  (c3_tag_boundaries_amended [⟨[⟨some 0, some 2, ['k']⟩], []⟩]).2
    [⟨0, true, .region 0 ['k']⟩, ⟨2, false, .region 0 ['k']⟩] (by decide)
    ⟨some 0, some 2, ['k']⟩ (by decide)

/-! ## The tag balancer (`balanced_tags_with_empties`, `without_empty_tags`,
`balanced_tags` — C1)

`balanced_tags_with_empties` keeps the `opens` stack of currently open
payloads; a close pops intermediates (emitting synthetic closes), emits the
close, then re-opens the intermediates.  `without_empty_tags` buffers runs and
cancels zero-width (open, close) pairs of the same payload object at the same
offset.  Both can raise `IndexError` on malformed input (`opens[-1]` /
`buffer[-1]` on an empty list), modelled by `none`. -/

/-- Split the `opens` stack (head = topmost) at the topmost occurrence of
payload `a`: `some (pre, post)` with `opens = pre ++ a :: post`, `a ∉ pre`.
This is the decomposition the `while opens[-1] is not payload: opens.pop()`
loop of `balanced_tags_with_empties` walks through; `none` models the
`IndexError` when `a` was never opened. -/
def splitAtPayload (a : Payload) : List Payload → Option (List Payload × List Payload)
  | [] => none
  | b :: rest =>
    if b = a then some ([], rest)
    else (splitAtPayload a rest).map fun pr => (b :: pr.1, pr.2)

theorem splitAtPayload_spec (a : Payload) :
    ∀ (l pre post : List Payload), splitAtPayload a l = some (pre, post) →
      l = pre ++ a :: post ∧ a ∉ pre := by
  intro l
  induction l with
  | nil => intro pre post h; cases h
  | cons b rest ih =>
    intro pre post h
    rw [splitAtPayload] at h
    by_cases hb : b = a
    · rw [if_pos hb] at h
      have := Option.some.inj h
      have hpre : pre = [] := (Prod.mk.injEq _ _ _ _ ▸ this).1.symm
      have hpost : post = rest := (Prod.mk.injEq _ _ _ _ ▸ this).2.symm
      subst hpre; subst hpost; subst hb
      exact ⟨rfl, by simp⟩
    · rw [if_neg hb] at h
      cases hsp : splitAtPayload a rest with
      | none => rw [hsp] at h; cases h
      | some pr =>
        rw [hsp] at h
        have := Option.some.inj h
        have hpre : pre = b :: pr.1 := (Prod.mk.injEq _ _ _ _ ▸ this).1.symm
        have hpost : post = pr.2 := (Prod.mk.injEq _ _ _ _ ▸ this).2.symm
        subst hpre; subst hpost
        rcases ih pr.1 pr.2 (by rw [hsp]) with ⟨h1, h2⟩
        constructor
        · rw [List.cons_append, ← h1]
        · intro hmem
          rcases List.mem_cons.mp hmem with hx | hx
          · exact hb hx.symm
          · exact h2 hx

theorem splitAtPayload_isSome (a : Payload) :
    ∀ l : List Payload, a ∈ l → (splitAtPayload a l).isSome := by
  intro l
  induction l with
  | nil => intro h; cases h
  | cons b rest ih =>
    intro hmem
    rw [splitAtPayload]
    by_cases hb : b = a
    · rw [if_pos hb]; rfl
    · rw [if_neg hb]
      have : a ∈ rest := by
        rcases List.mem_cons.mp hmem with hx | hx
        · exact absurd hx.symm hb
        · exact hx
      cases hsp : splitAtPayload a rest with
      | none => rw [hsp] at ih; exact absurd (ih this) (by simp)
      | some pr => rfl

/-- `balanced_tags_with_empties` with the `opens` stack explicit (head =
topmost).  An open is emitted and pushed.  A close emits synthetic closes for
every payload above the matching open (in pop order), the close itself, and
then synthetic re-opens for the popped payloads in reverse pop order (the
`closes` scratch stack of the source), re-pushing them. -/
def btweGo : List Payload → List Tag → Option (List Tag)
  | _, [] => some []
  | opens, t :: ts =>
    if t.isStart then
      (btweGo (t.payload :: opens) ts).map fun rest => t :: rest
    else
      (splitAtPayload t.payload opens).bind fun pr =>
        (btweGo (pr.1 ++ pr.2) ts).map fun rest =>
          (pr.1.map fun b => ⟨t.point, false, b⟩) ++
            ⟨t.point, false, t.payload⟩ ::
              ((pr.1.reverse.map fun b => ⟨t.point, true, b⟩) ++ rest)

/-- `balanced_tags_with_empties(tags)` from `build.py`. -/
def balanced_tags_with_empties (tags : List Tag) : Option (List Tag) :=
  btweGo [] tags

/-- `without_empty_tags` with the `buffer` and the Python-int `depth`
explicit.  `buffer.getLast?` is `buffer[-1]` (reading it on an empty buffer is
the modelled `IndexError`); a close whose payload and offset equal the
buffered last element's cancels it (`buffer.pop()`), otherwise it is buffered;
after `depth -= 1`, `if not depth` flushes the buffer.  The Python local
`buffer` update is inlined into both branches of the flush test. -/
def wetGo : List Tag → Int → List Tag → Option (List Tag)
  | _, _, [] => some []
  | buffer, depth, t :: ts =>
    if t.isStart then
      wetGo (buffer ++ [t]) (depth + 1) ts
    else
      buffer.getLast?.bind fun top =>
        if depth - 1 = 0 then
          (wetGo [] 0 ts).map fun rest =>
            (if top.payload = t.payload ∧ top.point = t.point
             then buffer.dropLast else buffer ++ [t]) ++ rest
        else
          wetGo (if top.payload = t.payload ∧ top.point = t.point
                 then buffer.dropLast else buffer ++ [t]) (depth - 1) ts

/-- `without_empty_tags(tags)` from `build.py`. -/
def without_empty_tags (tags : List Tag) : Option (List Tag) :=
  wetGo [] 0 tags

/-- `balanced_tags(tags) = without_empty_tags(balanced_tags_with_empties(tags))`. -/
def balanced_tags (tags : List Tag) : Option (List Tag) :=
  (balanced_tags_with_empties tags).bind without_empty_tags

/-! ### A nesting checker

`runChk` scans a stream with a stack of `(payload, open offset)` pairs: an
open pushes (its payload must not be currently open), a close must match the
top of the stack — i.e. the most recent unmatched open — and in strict mode
must sit at a strictly larger offset than its open (no zero-width span).
`runChk true [] out = some []` says `out` is properly nested with
identity-matched pairs and no zero-width span. -/
/-- One checker step: an open pushes `(payload, point)` (the payload must not
be currently open); a close must match the top of the stack — the most recent
unmatched open — and in strict mode must sit strictly past its open's offset. -/
def chkStep (strict : Bool) (st : List (Payload × Int)) (t : Tag) :
    Option (List (Payload × Int)) :=
  if t.isStart then
    if st.any fun e => e.1 = t.payload then none
    else some ((t.payload, t.point) :: st)
  else
    match st with
    | [] => none
    | (b, p) :: st2 =>
      if b = t.payload ∧ (strict = true → p < t.point) then some st2 else none

def runChk (strict : Bool) : List (Payload × Int) → List Tag → Option (List (Payload × Int))
  | st, [] => some st
  | st, t :: ts => (chkStep strict st t).bind fun st2 => runChk strict st2 ts

theorem chkStep_some_open {strict : Bool} {st st2 : List (Payload × Int)} {t : Tag}
    (h : chkStep strict st t = some st2) (hs : t.isStart = true) :
    (st.any fun e => e.1 = t.payload) = false ∧ st2 = (t.payload, t.point) :: st := by
  rcases t with ⟨q, s, a⟩
  have hs2 : s = true := hs
  subst hs2
  have h2 : (if st.any fun e => e.1 = a then none
      else some ((a, q) :: st)) = some st2 := h
  by_cases hfresh : st.any fun e => e.1 = a
  · rw [if_pos hfresh] at h2; cases h2
  · rw [if_neg hfresh] at h2
    exact ⟨Bool.eq_false_iff.mpr hfresh, (Option.some.inj h2).symm⟩

theorem chkStep_some_close {strict : Bool} {st st2 : List (Payload × Int)} {t : Tag}
    (h : chkStep strict st t = some st2) (hs : t.isStart = false) :
    ∃ p, st = (t.payload, p) :: st2 ∧ (strict = true → p < t.point) := by
  rcases t with ⟨q, s, a⟩
  have hs2 : s = false := hs
  subst hs2
  cases st with
  | nil => cases h
  | cons e st3 =>
    rcases e with ⟨b, p⟩
    have h2 : (if b = a ∧ (strict = true → p < q) then some st3 else none)
        = some st2 := h
    by_cases hc : b = a ∧ (strict = true → p < q)
    · rw [if_pos hc] at h2
      have h3 : st3 = st2 := Option.some.inj h2
      subst h3
      refine ⟨p, ?_, hc.2⟩
      rw [hc.1]
    · rw [if_neg hc] at h2
      cases h2

theorem chkStep_open_of {strict : Bool} {st : List (Payload × Int)} {t : Tag}
    (hs : t.isStart = true) (hfresh : (st.any fun e => e.1 = t.payload) = false) :
    chkStep strict st t = some ((t.payload, t.point) :: st) := by
  rcases t with ⟨q, s, a⟩
  have hs2 : s = true := hs
  subst hs2
  show (if st.any fun e => e.1 = a then none else some ((a, q) :: st))
      = some ((a, q) :: st)
  exact if_neg (by rw [show (st.any fun e => e.1 = a) = false from hfresh]; simp)

theorem chkStep_close_of {strict : Bool} {st2 : List (Payload × Int)} {t : Tag}
    {p : Int} (hs : t.isStart = false) (hp : strict = true → p < t.point) :
    chkStep strict ((t.payload, p) :: st2) t = some st2 := by
  rcases t with ⟨q, s, a⟩
  have hs2 : s = false := hs
  subst hs2
  show (if a = a ∧ (strict = true → p < q) then some st2 else none) = some st2
  exact if_pos ⟨rfl, hp⟩

/-! Well-formedness of the balancer's input, relative to the list `opens` of
currently open payloads (topmost first): an open's payload must not be
currently open, a close's payload must be currently open, and at the end of
the stream everything is closed.  This is the shape of the sorted stream the
pipeline feeds to `balanced_tags` ("each payload's open precedes its close"),
allowing the shared Line marker to be re-opened after it closes. -/

/-- One step of the input well-formedness scan: an open pushes a payload not
currently open; a close removes the topmost occurrence of its (currently
open) payload. -/
def wfStep (opens : List Payload) (t : Tag) : Option (List Payload) :=
  if t.isStart then
    if t.payload ∈ opens then none else some (t.payload :: opens)
  else
    (splitAtPayload t.payload opens).map fun pr => pr.1 ++ pr.2

def wfFrom : List Payload → List Tag → Bool
  | opens, [] => opens.isEmpty
  | opens, t :: ts =>
    match wfStep opens t with
    | none => false
    | some opens2 => wfFrom opens2 ts

theorem wfStep_some_open {opens o2 : List Payload} {t : Tag}
    (h : wfStep opens t = some o2) (hs : t.isStart = true) :
    t.payload ∉ opens ∧ o2 = t.payload :: opens := by
  rcases t with ⟨q, sb, a⟩
  have hs2 : sb = true := hs
  subst hs2
  have h2 : (if a ∈ opens then none else some (a :: opens)) = some o2 := h
  by_cases hmem : a ∈ opens
  · rw [if_pos hmem] at h2; cases h2
  · rw [if_neg hmem] at h2
    exact ⟨hmem, (Option.some.inj h2).symm⟩

theorem wfStep_some_close {opens o2 : List Payload} {t : Tag}
    (h : wfStep opens t = some o2) (hs : t.isStart = false) :
    ∃ pre post, splitAtPayload t.payload opens = some (pre, post) ∧
      o2 = pre ++ post := by
  rcases t with ⟨q, sb, a⟩
  have hs2 : sb = false := hs
  subst hs2
  have h2 : (splitAtPayload a opens).map (fun pr => pr.1 ++ pr.2) = some o2 := h
  cases hsp : splitAtPayload a opens with
  | none => rw [hsp] at h2; cases h2
  | some pr =>
    rw [hsp] at h2
    exact ⟨pr.1, pr.2, by rw [Prod.mk.eta], (Option.some.inj h2).symm⟩

theorem wfFrom_cons {opens : List Payload} {t : Tag} {ts : List Tag}
    (h : wfFrom opens (t :: ts) = true) :
    ∃ o2, wfStep opens t = some o2 ∧ wfFrom o2 ts = true := by
  rw [wfFrom] at h
  cases hst : wfStep opens t with
  | none => rw [hst] at h; cases h
  | some o2 => rw [hst] at h; exact ⟨o2, rfl, h⟩

/-- Offsets never decrease along a stream. -/
def Mono (l : List Tag) : Prop := List.Pairwise (fun a b => a.point ≤ b.point) l

instance : DecidablePred Mono := fun l =>
  inferInstanceAs (Decidable (List.Pairwise _ l))

def opensCount (l : List Tag) : Nat := (l.filter fun t => t.isStart).length
def closesCount (l : List Tag) : Nat := (l.filter fun t => !t.isStart).length

theorem runChk_append (strict : Bool) (u v : List Tag) :
    ∀ st, runChk strict st (u ++ v)
      = (runChk strict st u).bind fun st2 => runChk strict st2 v := by
  induction u with
  | nil => intro st; rfl
  | cons t u ih =>
    intro st
    rw [List.cons_append, runChk, runChk]
    cases hc : chkStep strict st t with
    | none => rfl
    | some st2 =>
      simp only [Option.some_bind]
      exact ih st2

theorem runChk_count (strict : Bool) :
    ∀ (ts : List Tag) (st st2 : List (Payload × Int)),
      runChk strict st ts = some st2 →
      st.length + opensCount ts = closesCount ts + st2.length := by
  intro ts
  induction ts with
  | nil =>
    intro st st2 h
    have : st = st2 := Option.some.inj h
    subst this
    simp [opensCount, closesCount]
  | cons t ts ih =>
    intro st st2 h
    rw [runChk] at h
    cases hc : chkStep strict st t with
    | none => rw [hc] at h; cases h
    | some st3 =>
      rw [hc] at h
      simp only [Option.some_bind] at h
      have hrec := ih _ _ h
      cases hstart : t.isStart with
      | true =>
        have := (chkStep_some_open hc hstart).2
        subst this
        simp only [opensCount, closesCount, List.filter_cons, hstart] at hrec ⊢
        simp at hrec ⊢
        omega
      | false =>
        rcases chkStep_some_close hc hstart with ⟨p, hst, _⟩
        subst hst
        simp only [opensCount, closesCount, List.filter_cons, hstart] at hrec ⊢
        simp at hrec ⊢
        omega

theorem runChk_prefix_balance (strict : Bool) (pre suf : List Tag)
    (h : runChk strict [] (pre ++ suf) = some []) :
    closesCount pre ≤ opensCount pre := by
  rw [runChk_append] at h
  cases hm : runChk strict [] pre with
  | none => rw [hm] at h; cases h
  | some stm =>
    have := runChk_count strict pre [] stm hm
    simp at this
    omega

theorem runChk_global_balance (strict : Bool) (ts : List Tag)
    (h : runChk strict [] ts = some []) : opensCount ts = closesCount ts := by
  have := runChk_count strict ts [] [] h
  simp at this
  omega

theorem runChk_nodup (strict : Bool) :
    ∀ (ts : List Tag) (st st2 : List (Payload × Int)),
      runChk strict st ts = some st2 →
      (st.map Prod.fst).Nodup → (st2.map Prod.fst).Nodup := by
  intro ts
  induction ts with
  | nil =>
    intro st st2 h hn
    have : st = st2 := Option.some.inj h
    subst this; exact hn
  | cons t ts ih =>
    intro st st2 h hn
    rw [runChk] at h
    cases hc : chkStep strict st t with
    | none => rw [hc] at h; cases h
    | some st3 =>
      rw [hc] at h
      simp only [Option.some_bind] at h
      cases hstart : t.isStart with
      | true =>
        rcases chkStep_some_open hc hstart with ⟨hfresh, hst⟩
        subst hst
        refine ih _ _ h ?_
        simp only [List.map_cons, List.nodup_cons]
        refine ⟨?_, hn⟩
        intro hmem
        rcases List.mem_map.mp hmem with ⟨e, he, hfe⟩
        have : st.any (fun e => e.1 = t.payload) = true :=
          List.any_eq_true.mpr ⟨e, he, by simp [hfe]⟩
        rw [this] at hfresh
        cases hfresh
      | false =>
        rcases chkStep_some_close hc hstart with ⟨p, hst, _⟩
        subst hst
        exact ih _ _ h (by
          simp only [List.map_cons, List.nodup_cons] at hn
          exact hn.2)

theorem runChk_pairwise (strict : Bool) :
    ∀ (ts : List Tag) (st st2 : List (Payload × Int)),
      runChk strict st ts = some st2 → Mono ts →
      (∀ e ∈ st, ∀ x ∈ ts, e.2 ≤ x.point) →
      st.Pairwise (fun x y => y.2 ≤ x.2) →
      st2.Pairwise (fun x y => y.2 ≤ x.2) := by
  intro ts
  induction ts with
  | nil =>
    intro st st2 h _ _ hp
    have : st = st2 := Option.some.inj h
    subst this; exact hp
  | cons t ts ih =>
    intro st st2 h hmono hbound hp
    rw [runChk] at h
    cases hc : chkStep strict st t with
    | none => rw [hc] at h; cases h
    | some st3 =>
      rw [hc] at h
      simp only [Option.some_bind] at h
      have hmono2 : Mono ts := List.Pairwise.of_cons hmono
      have hhead : ∀ x ∈ ts, t.point ≤ x.point :=
        fun x hx => List.rel_of_pairwise_cons hmono hx
      cases hstart : t.isStart with
      | true =>
        rcases chkStep_some_open hc hstart with ⟨hfresh, hst⟩
        subst hst
        refine ih _ _ h hmono2 ?_ ?_
        · intro e he x hx
          rcases List.mem_cons.mp he with he1 | he2
          · subst he1
            exact hhead x hx
          · exact le_trans (hbound e he2 t (by simp)) (hhead x hx)
        · exact List.pairwise_cons.mpr
            ⟨fun e he => hbound e he t (by simp), hp⟩
      | false =>
        rcases chkStep_some_close hc hstart with ⟨p, hst, _⟩
        subst hst
        refine ih _ _ h hmono2 ?_ (List.Pairwise.of_cons hp)
        intro e2 he2 x hx
        exact hbound e2 (List.mem_cons_of_mem _ he2) x (List.mem_cons_of_mem _ hx)

/-! ### Correctness of `balanced_tags_with_empties` -/

theorem runChk_closes_chunk (q : Int) :
    ∀ (pre : List Payload) (preSt S : List (Payload × Int)),
      preSt.map Prod.fst = pre →
      runChk false (preSt ++ S) (pre.map fun b => Tag.mk q false b) = some S := by
  intro pre
  induction pre with
  | nil =>
    intro preSt S hm
    have : preSt = [] := List.map_eq_nil_iff.mp hm
    subst this
    rfl
  | cons b pre ih =>
    intro preSt S hm
    cases preSt with
    | nil => simp at hm
    | cons e preSt2 =>
      rcases e with ⟨b2, p2⟩
      simp only [List.map_cons, List.cons.injEq] at hm
      have hb : b2 = b := hm.1
      subst hb
      rw [List.map_cons, List.cons_append, runChk]
      rw [show chkStep false ((b2, p2) :: (preSt2 ++ S)) (Tag.mk q false b2)
          = some (preSt2 ++ S) from chkStep_close_of rfl (fun hx => by cases hx)]
      simp only [Option.some_bind]
      exact ih preSt2 S hm.2

theorem runChk_reopens_chunk (q : Int) :
    ∀ (pre : List Payload) (S : List (Payload × Int)),
      pre.Nodup → (∀ b ∈ pre, ∀ e ∈ S, e.1 ≠ b) →
      runChk false S (pre.reverse.map fun b => Tag.mk q true b)
        = some ((pre.map fun b => (b, q)) ++ S) := by
  intro pre
  induction pre with
  | nil => intro S _ _; rfl
  | cons b pre ih =>
    intro S hnd hdisj
    rw [List.reverse_cons, List.map_append, runChk_append]
    rw [ih S (List.Nodup.of_cons hnd)
      (fun b2 hb2 e he => hdisj b2 (List.mem_cons_of_mem _ hb2) e he)]
    simp only [Option.some_bind, List.map_cons, List.map_nil]
    rw [runChk]
    have hfresh : (((pre.map fun b => (b, q)) ++ S).any
        fun e => e.1 = (Tag.mk q true b).payload) = false := by
      rw [List.any_eq_false]
      intro e he
      simp only [decide_eq_true_eq]
      rcases List.mem_append.mp he with hmem | hmem
      · rcases List.mem_map.mp hmem with ⟨b2, hb2, hbe⟩
        subst hbe
        intro hcontra
        have : b ∈ pre := by
          rw [show b2 = b from hcontra] at hb2
          exact hb2
        exact (List.nodup_cons.mp hnd).1 this
      · intro hcontra
        exact hdisj b (by simp) e hmem hcontra
    rw [chkStep_open_of rfl hfresh]
    simp only [Option.some_bind]
    rw [runChk, List.cons_append]

theorem btweGo_ok :
    ∀ (ts : List Tag) (opens : List Payload) (st : List (Payload × Int)),
      st.map Prod.fst = opens →
      opens.Nodup →
      wfFrom opens ts = true →
      Mono ts →
      (∀ e ∈ st, ∀ x ∈ ts, e.2 ≤ x.point) →
      ∃ out, btweGo opens ts = some out ∧
        runChk false st out = some [] ∧
        Mono out ∧
        (∀ x ∈ out, ∃ u ∈ ts, x.point = u.point) ∧
        ts.Sublist out := by
  intro ts
  induction ts with
  | nil =>
    intro opens st hmap hnd hwf hmono hbound
    refine ⟨[], rfl, ?_, List.Pairwise.nil, by simp, List.Sublist.refl []⟩
    have hopens : opens = [] := by
      rw [wfFrom] at hwf
      exact List.isEmpty_iff.mp hwf
    subst hopens
    have : st = [] := List.map_eq_nil_iff.mp hmap
    subst this
    rfl
  | cons t ts ih =>
    intro opens st hmap hnd hwf hmono hbound
    rcases wfFrom_cons hwf with ⟨o2, hstep, hwf2⟩
    have hmono2 : Mono ts := List.Pairwise.of_cons hmono
    have hhead : ∀ x ∈ ts, t.point ≤ x.point :=
      fun x hx => List.rel_of_pairwise_cons hmono hx
    cases hstart : t.isStart with
    | true =>
      rcases wfStep_some_open hstep hstart with ⟨hnotmem, ho2⟩
      subst ho2
      have hnd2 : (t.payload :: opens).Nodup := List.nodup_cons.mpr ⟨hnotmem, hnd⟩
      have hmap2 : ((t.payload, t.point) :: st).map Prod.fst = t.payload :: opens := by
        simp [hmap]
      have hbound2 : ∀ e ∈ (t.payload, t.point) :: st, ∀ x ∈ ts, e.2 ≤ x.point := by
        intro e he x hx
        rcases List.mem_cons.mp he with he1 | he2
        · subst he1; exact hhead x hx
        · exact le_trans (hbound e he2 t (by simp)) (hhead x hx)
      rcases ih (t.payload :: opens) ((t.payload, t.point) :: st)
        hmap2 hnd2 hwf2 hmono2 hbound2 with ⟨out, hgo, hchk, hmo, hpts, hsub⟩
      refine ⟨t :: out, ?_, ?_, ?_, ?_, ?_⟩
      · rw [btweGo, if_pos hstart, hgo]
        rfl
      · rw [runChk]
        have hfresh : (st.any fun e => e.1 = t.payload) = false := by
          rw [List.any_eq_false]
          intro e he
          simp only [decide_eq_true_eq]
          intro hcontra
          exact hnotmem (hmap ▸ List.mem_map.mpr ⟨e, he, hcontra⟩)
        rw [chkStep_open_of hstart hfresh]
        simp only [Option.some_bind]
        exact hchk
      · refine List.pairwise_cons.mpr ⟨?_, hmo⟩
        intro x hx
        rcases hpts x hx with ⟨u, hu, hxy⟩
        rw [hxy]
        exact hhead u hu
      · intro x hx
        rcases List.mem_cons.mp hx with hx1 | hx2
        · exact ⟨t, by simp, by rw [hx1]⟩
        · rcases hpts x hx2 with ⟨u, hu, hxy⟩
          exact ⟨u, List.mem_cons_of_mem _ hu, hxy⟩
      · exact List.Sublist.cons₂ t hsub
    | false =>
      rcases wfStep_some_close hstep hstart with ⟨pre, post, hsp, ho2⟩
      subst ho2
      rcases splitAtPayload_spec t.payload opens pre post hsp with ⟨hopens, hnotpre⟩
      -- split the checker stack in the image of the opens split
      have hmapsplit : ∃ preSt rest, st = preSt ++ rest ∧
          preSt.map Prod.fst = pre ∧ rest.map Prod.fst = t.payload :: post := by
        rcases List.map_eq_append_iff.mp (hmap.trans hopens) with
          ⟨preSt, rest, hst, hm1, hm2⟩
        exact ⟨preSt, rest, hst, hm1, hm2⟩
      rcases hmapsplit with ⟨preSt, rest, hstsplit, hm1, hm2⟩
      have hrestshape : ∃ pa postSt, rest = (t.payload, pa) :: postSt ∧
          postSt.map Prod.fst = post := by
        cases rest with
        | nil => simp at hm2
        | cons e postSt =>
          rcases e with ⟨b2, pa⟩
          simp only [List.map_cons, List.cons.injEq] at hm2
          exact ⟨pa, postSt, by rw [hm2.1], hm2.2⟩
      rcases hrestshape with ⟨pa, postSt, hrest, hm3⟩
      subst hrest
      subst hstsplit
      have hndpp : (pre ++ post).Nodup := by
        rw [hopens] at hnd
        rcases List.nodup_append.mp hnd with ⟨hnd1, hnd2, hdisj⟩
        refine List.nodup_append.mpr ⟨hnd1, List.Nodup.of_cons hnd2, ?_⟩
        intro a ha hb
        exact hdisj ha (List.mem_cons_of_mem _ hb)
      have hmap2 : ((preSt.map fun e => (e.1, t.point)) ++ postSt).map Prod.fst
          = pre ++ post := by
        rw [List.map_append, List.map_map]
        have h1 : preSt.map (Prod.fst ∘ fun e => (e.1, t.point)) = pre := hm1
        rw [h1, hm3]
      have hbound2 : ∀ e ∈ (preSt.map fun e => (e.1, t.point)) ++ postSt,
          ∀ x ∈ ts, e.2 ≤ x.point := by
        intro e he x hx
        rcases List.mem_append.mp he with hmem | hmem
        · rcases List.mem_map.mp hmem with ⟨e2, _, hee⟩
          rw [← hee]
          exact hhead x hx
        · exact le_trans
            (hbound e (List.mem_append.mpr (Or.inr (List.mem_cons_of_mem _ hmem)))
              t (by simp))
            (hhead x hx)
      rcases ih (pre ++ post) ((preSt.map fun e => (e.1, t.point)) ++ postSt)
        hmap2 hndpp hwf2 hmono2 hbound2 with ⟨out, hgo, hchk, hmo, hpts, hsub⟩
      refine ⟨(pre.map fun b => ⟨t.point, false, b⟩) ++
          ⟨t.point, false, t.payload⟩ ::
            ((pre.reverse.map fun b => ⟨t.point, true, b⟩) ++ out), ?_, ?_, ?_, ?_, ?_⟩
      · rw [btweGo, if_neg (by rw [hstart]; exact Bool.false_ne_true), hsp]
        simp only [Option.some_bind]
        rw [hgo]
        rfl
      · -- run the checker over the emitted chunk
        rw [runChk_append, runChk_closes_chunk t.point pre preSt
          ((t.payload, pa) :: postSt) hm1]
        simp only [Option.some_bind]
        rw [runChk]
        rw [show chkStep false ((t.payload, pa) :: postSt) (Tag.mk t.point false t.payload)
            = some postSt from chkStep_close_of rfl (fun hx => by cases hx)]
        simp only [Option.some_bind]
        rw [runChk_append, runChk_reopens_chunk t.point pre postSt
          (by rw [hopens] at hnd
              exact (List.nodup_append.mp hnd).1)
          (by intro b hb e he
              rw [hopens] at hnd
              rcases List.nodup_append.mp hnd with ⟨_, _, hdisj⟩
              intro hcontra
              have hmem : e.1 ∈ post := hm3 ▸ List.mem_map.mpr ⟨e, he, rfl⟩
              exact hdisj hb (List.mem_cons_of_mem _ (hcontra ▸ hmem)))]
        simp only [Option.some_bind]
        have : (pre.map fun b => (b, t.point)) ++ postSt
            = (preSt.map fun e => (e.1, t.point)) ++ postSt := by
          congr 1
          rw [← hm1, List.map_map]
          rfl
        rw [this]
        exact hchk
      · -- monotonicity of the emitted stream
        have hchunkpts : ∀ x ∈ (pre.map fun b => Tag.mk t.point false b) ++
            Tag.mk t.point false t.payload ::
              (pre.reverse.map fun b => Tag.mk t.point true b),
            x.point = t.point := by
          intro x hx
          rcases List.mem_append.mp hx with hmem | hmem
          · rcases List.mem_map.mp hmem with ⟨b, _, hbe⟩
            rw [← hbe]
          · rcases List.mem_cons.mp hmem with hmem2 | hmem2
            · rw [hmem2]
            · rcases List.mem_map.mp hmem2 with ⟨b, _, hbe⟩
              rw [← hbe]
        have hshape : (pre.map fun b => Tag.mk t.point false b) ++
            Tag.mk t.point false t.payload ::
              ((pre.reverse.map fun b => Tag.mk t.point true b) ++ out)
            = ((pre.map fun b => Tag.mk t.point false b) ++
                Tag.mk t.point false t.payload ::
                  (pre.reverse.map fun b => Tag.mk t.point true b)) ++ out := by
          simp
        rw [hshape]
        rw [Mono, List.pairwise_append]
        refine ⟨?_, hmo, ?_⟩
        · rw [List.pairwise_iff_forall_sublist]
          intro a b hab
          have ha := hchunkpts a (hab.subset (by simp))
          have hb := hchunkpts b (hab.subset (by simp))
          rw [ha, hb]
        · intro a ha b hb
          rw [hchunkpts a ha]
          rcases hpts b hb with ⟨u, hu, hbe⟩
          rw [hbe]
          exact hhead u hu
      · intro x hx
        rcases List.mem_append.mp hx with hmem | hmem
        · rcases List.mem_map.mp hmem with ⟨b, _, hbe⟩
          exact ⟨t, by simp, by rw [← hbe]⟩
        · rcases List.mem_cons.mp hmem with hmem2 | hmem2
          · exact ⟨t, by simp, by rw [hmem2]⟩
          · rcases List.mem_append.mp hmem2 with hmem3 | hmem3
            · rcases List.mem_map.mp hmem3 with ⟨b, _, hbe⟩
              exact ⟨t, by simp, by rw [← hbe]⟩
            · rcases hpts x hmem3 with ⟨u, hu, hxy⟩
              exact ⟨u, List.mem_cons_of_mem _ hu, hxy⟩
      · -- the input is a subsequence of the output
        have hteq : t = Tag.mk t.point false t.payload := by
          rcases t with ⟨q, sb, a⟩
          have : sb = false := hstart
          rw [this]
        have hsub2 : (t :: ts).Sublist
            (Tag.mk t.point false t.payload ::
              ((pre.reverse.map fun b => Tag.mk t.point true b) ++ out)) := by
          rw [← hteq]
          exact List.Sublist.cons₂ t
            (List.Sublist.trans hsub (List.sublist_append_right _ _))
        exact List.Sublist.trans hsub2 (List.sublist_append_right _ _)
/-! ### Correctness of `without_empty_tags` -/

theorem eq_dropLast_append_getLast {α : Type} :
    ∀ {l : List α} {a : α}, l.getLast? = some a → l = l.dropLast ++ [a] := by
  intro l
  induction l with
  | nil => intro a h; cases h
  | cons b m ih =>
    intro a h
    cases m with
    | nil =>
      have hba : b = a := Option.some.inj h
      rw [hba]
      rfl
    | cons c m2 =>
      have h2 : (c :: m2).getLast? = some a := by
        rw [← h]
        exact List.getLast?_cons_cons.symm
      conv_lhs => rw [ih h2]
      rfl

theorem getLast?_none_eq_nil {α : Type} {l : List α}
    (h : l.getLast? = none) : l = [] := by
  cases l with
  | nil => rfl
  | cons b m =>
    exfalso
    cases m with
    | nil => cases h
    | cons c m2 =>
      rw [List.getLast?_cons_cons] at h
      have h2 : (c :: m2).getLast? = none := h
      have := getLast?_none_eq_nil h2
      cases this

/-- Main invariant lemma for `without_empty_tags`: scanning a weakly balanced
(`runChk false`), offset-monotone remainder with a buffer whose strict
checker stack equals the remainder's weak stack produces a strictly nested,
monotone output that is a subsequence of `buffer ++ ts`, keeps every buffered
close, and keeps every close that is not preceded (in the buffer or earlier
in the stream) by an open of the same payload at the same offset. -/
theorem wetGo_ok :
    ∀ (ts buffer : List Tag) (depth : Int) (stackW : List (Payload × Int)),
      runChk false stackW ts = some [] →
      Mono ts →
      runChk true [] buffer = some stackW →
      Mono buffer →
      (∀ e ∈ buffer, ∀ x ∈ ts, e.point ≤ x.point) →
      depth = (stackW.length : Int) →
      (stackW = [] → buffer = []) →
      ∃ fin, wetGo buffer depth ts = some fin ∧
        runChk true [] fin = some [] ∧
        Mono fin ∧
        fin.Sublist (buffer ++ ts) ∧
        (∀ x ∈ buffer, x.isStart = false → x ∈ fin) ∧
        (∀ u c v, ts = u ++ c :: v → c.isStart = false →
          (∀ w ∈ u, ¬(w.isStart = true ∧ w.payload = c.payload ∧ w.point = c.point)) →
          (∀ w ∈ buffer, ¬(w.isStart = true ∧ w.payload = c.payload ∧ w.point = c.point)) →
          c ∈ fin) := by
  intro ts
  induction ts with
  | nil =>
    intro buffer depth stackW h1 _ h3 _ _ _ h7
    have hW : stackW = [] := Option.some.inj h1
    subst hW
    have hB : buffer = [] := h7 rfl
    subst hB
    refine ⟨[], rfl, rfl, List.Pairwise.nil, List.nil_sublist _, ?_, ?_⟩
    · intro x hx; cases hx
    · intro u c v hdec
      exfalso
      cases u <;> simp at hdec
  | cons t ts2 ih =>
    intro buffer depth stackW h1 h2 h3 h4 h5 h6 h7
    have hmono2 : Mono ts2 := List.Pairwise.of_cons h2
    have hhead : ∀ x ∈ ts2, t.point ≤ x.point :=
      fun x hx => List.rel_of_pairwise_cons h2 hx
    rw [runChk] at h1
    cases hc : chkStep false stackW t with
    | none => rw [hc] at h1; cases h1
    | some st3 =>
      rw [hc] at h1
      simp only [Option.some_bind] at h1
      cases hstart : t.isStart with
      | true =>
        -- open: buffer the tag and recurse
        rcases chkStep_some_open hc hstart with ⟨hfresh, hst3⟩
        subst hst3
        have hI3 : runChk true [] (buffer ++ [t])
            = some ((t.payload, t.point) :: stackW) := by
          rw [runChk_append, h3]
          simp only [Option.some_bind]
          rw [runChk, chkStep_open_of hstart hfresh]
          simp only [Option.some_bind]
          rw [runChk]
        have hMb : Mono (buffer ++ [t]) := by
          rw [Mono, List.pairwise_append]
          exact ⟨h4, List.pairwise_singleton _ _,
            fun a ha b hb => by
              rw [List.mem_singleton.mp hb]
              exact h5 a ha t (by simp)⟩
        have hB5 : ∀ e ∈ buffer ++ [t], ∀ x ∈ ts2, e.point ≤ x.point := by
          intro e he x hx
          rcases List.mem_append.mp he with hm | hm
          · exact h5 e hm x (List.mem_cons_of_mem _ hx)
          · rw [List.mem_singleton.mp hm]
            exact hhead x hx
        rcases ih (buffer ++ [t]) (depth + 1) ((t.payload, t.point) :: stackW)
          h1 hmono2 hI3 hMb hB5
          (by rw [h6]; simp)
          (by intro hcontra; cases hcontra) with
          ⟨fin, hfin, hchk, hmo, hsub, hkeep, hsurv⟩
        refine ⟨fin, ?_, hchk, hmo, ?_, ?_, ?_⟩
        · rw [wetGo, if_pos hstart]
          exact hfin
        · have : (buffer ++ [t]) ++ ts2 = buffer ++ (t :: ts2) := by simp
          rw [← this]
          exact hsub
        · intro x hx hxc
          exact hkeep x (List.mem_append.mpr (Or.inl hx)) hxc
        · intro u c v hdec hcc hu hbuf
          cases u with
          | nil =>
            exfalso
            rw [List.nil_append] at hdec
            have hdec2 := List.cons.inj hdec
            rw [← hdec2.1, hstart] at hcc
            cases hcc
          | cons u0 u2 =>
            rw [List.cons_append] at hdec
            have hdec2 := List.cons.inj hdec
            have hts2 : ts2 = u2 ++ c :: v := hdec2.2
            refine hsurv u2 c v hts2 hcc
              (fun w hw => hu w (List.mem_cons_of_mem _ hw)) ?_
            intro w hw
            rcases List.mem_append.mp hw with hm | hm
            · exact hbuf w hm
            · rw [List.mem_singleton.mp hm, hdec2.1]
              exact hu u0 (by simp)
      | false =>
        -- close: examine the buffered last element (Python buffer[-1])
        rcases chkStep_some_close hc hstart with ⟨p0, hstW, _⟩
        have hstart2 : ¬(t.isStart = true) := by
          rw [hstart]; exact Bool.false_ne_true
        cases hlast : buffer.getLast? with
        | none =>
          exfalso
          have hbnil : buffer = [] := getLast?_none_eq_nil hlast
          rw [hbnil, runChk] at h3
          have hW : ([] : List (Payload × Int)) = stackW := Option.some.inj h3
          rw [← hW] at hstW
          cases hstW
        | some tl =>
          have hbufeq : buffer = buffer.dropLast ++ [tl] :=
            eq_dropLast_append_getLast hlast
          have htlmem : tl ∈ buffer := by
            rw [hbufeq]
            exact List.mem_append.mpr (Or.inr (by simp))
          have h3b := h3
          rw [hbufeq, runChk_append] at h3b
          cases hmid : runChk true [] buffer.dropLast with
          | none => rw [hmid] at h3b; cases h3b
          | some stm =>
            rw [hmid] at h3b
            simp only [Option.some_bind] at h3b
            rw [runChk] at h3b
            cases hcs : chkStep true stm tl with
            | none => rw [hcs] at h3b; cases h3b
            | some st4 =>
              rw [hcs] at h3b
              simp only [Option.some_bind] at h3b
              rw [runChk] at h3b
              have hst4 : st4 = stackW := Option.some.inj h3b
              subst hst4
              have hMdrop : Mono buffer.dropLast :=
                List.Pairwise.sublist (List.dropLast_sublist buffer) h4
              have hstmnodup : (stm.map Prod.fst).Nodup :=
                runChk_nodup true buffer.dropLast [] stm hmid (by simp)
              have hstmpair : stm.Pairwise (fun x y => y.2 ≤ x.2) :=
                runChk_pairwise true buffer.dropLast [] stm hmid hMdrop
                  (by intro e he; cases he) List.Pairwise.nil
              have htlpt : tl.point ≤ t.point := h5 tl htlmem t (by simp)
              by_cases hcancel : tl.payload = t.payload ∧ tl.point = t.point
              · -- zero-width cancellation: the buffered last must be t's open
                have htlopen : tl.isStart = true := by
                  cases htlo : tl.isStart with
                  | true => rfl
                  | false =>
                    exfalso
                    rcases chkStep_some_close hcs htlo with ⟨m, hstm, _⟩
                    have hstm2 : stm = (t.payload, m) :: (t.payload, p0) :: st3 := by
                      rw [hstm, hcancel.1, hstW]
                    rw [hstm2] at hstmnodup
                    simp only [List.map_cons, List.nodup_cons] at hstmnodup
                    exact hstmnodup.1 (by simp)
                rcases chkStep_some_open hcs htlopen with ⟨hstmfresh, hpush⟩
                rw [hstW] at hpush
                have hinj := List.cons.inj hpush
                have hstm3 : st3 = stm := hinj.2
                by_cases hflush : depth - 1 = 0
                · -- cancel and flush
                  have hst3nil : st3 = [] := by
                    rw [h6, hstW] at hflush
                    simp only [List.length_cons] at hflush
                    have hlen : st3.length = 0 := by
                      push_cast at hflush
                      omega
                    exact List.length_eq_zero.mp hlen
                  subst hst3nil
                  rcases ih [] 0 [] h1 hmono2 rfl List.Pairwise.nil
                    (by intro e he; cases he) rfl (fun _ => rfl) with
                    ⟨fin2, hfin2, hchk2, hmo2, hsub2, _, hsurv2⟩
                  have hmid0 : runChk true [] buffer.dropLast = some [] := by
                    rw [hmid]
                    exact congrArg some hstm3.symm
                  refine ⟨buffer.dropLast ++ fin2, ?_, ?_, ?_, ?_, ?_, ?_⟩
                  · rw [wetGo, if_neg hstart2, hlast]
                    simp only [Option.some_bind]
                    rw [if_pos hflush]
                    simp only [if_pos hcancel]
                    rw [hfin2]
                    rfl
                  · rw [runChk_append, hmid0]
                    simp only [Option.some_bind]
                    exact hchk2
                  · rw [Mono, List.pairwise_append]
                    refine ⟨hMdrop, hmo2, ?_⟩
                    intro a ha b hb
                    have hbmem : b ∈ ts2 := by
                      have := hsub2.subset hb
                      simpa using this
                    exact h5 a ((List.dropLast_sublist buffer).subset ha) b
                      (List.mem_cons_of_mem _ hbmem)
                  · have h2s : fin2.Sublist (t :: ts2) := by
                      have hfs : fin2.Sublist ts2 := by
                        have := hsub2
                        rw [List.nil_append] at this
                        exact this
                      exact hfs.trans (List.sublist_cons_self t ts2)
                    exact List.Sublist.append (List.dropLast_sublist buffer) h2s
                  · intro x hx hxc
                    have hxd : x ∈ buffer.dropLast := by
                      rw [hbufeq] at hx
                      rcases List.mem_append.mp hx with hm | hm
                      · exact hm
                      · exfalso
                        rw [List.mem_singleton.mp hm, htlopen] at hxc
                        cases hxc
                    exact List.mem_append.mpr (Or.inl hxd)
                  · intro u c v hdec hcc hu hbuf
                    cases u with
                    | nil =>
                      exfalso
                      rw [List.nil_append] at hdec
                      have hdec2 := List.cons.inj hdec
                      refine hbuf tl htlmem ⟨htlopen, ?_, ?_⟩
                      · rw [← hdec2.1]
                        exact hcancel.1
                      · rw [← hdec2.1]
                        exact hcancel.2
                    | cons u0 u2 =>
                      rw [List.cons_append] at hdec
                      have hdec2 := List.cons.inj hdec
                      have hcf : c ∈ fin2 :=
                        hsurv2 u2 c v hdec2.2 hcc
                          (fun w hw => hu w (List.mem_cons_of_mem _ hw))
                          (fun w hw => by cases hw)
                      exact List.mem_append.mpr (Or.inr hcf)
                · -- cancel without flushing
                  have hst3ne : st3 ≠ [] := by
                    intro hcontra
                    apply hflush
                    rw [h6, hstW, hcontra]
                    simp
                  have hI3b : runChk true [] buffer.dropLast = some st3 := by
                    rw [hmid]
                    exact congrArg some hstm3.symm
                  have hd6 : depth - 1 = (st3.length : Int) := by
                    rw [h6, hstW]
                    simp
                  rcases ih buffer.dropLast (depth - 1) st3 h1 hmono2 hI3b hMdrop
                    (fun e he x hx => h5 e ((List.dropLast_sublist buffer).subset he) x
                      (List.mem_cons_of_mem _ hx))
                    hd6 (fun hcontra => absurd hcontra hst3ne) with
                    ⟨fin2, hfin2, hchk2, hmo2, hsub2, hkeep2, hsurv2⟩
                  refine ⟨fin2, ?_, hchk2, hmo2, ?_, ?_, ?_⟩
                  · rw [wetGo, if_neg hstart2, hlast]
                    simp only [Option.some_bind]
                    rw [if_neg hflush]
                    simp only [if_pos hcancel]
                    exact hfin2
                  · exact hsub2.trans (List.Sublist.append (List.dropLast_sublist buffer)
                      (List.sublist_cons_self t ts2))
                  · intro x hx hxc
                    have hxd : x ∈ buffer.dropLast := by
                      rw [hbufeq] at hx
                      rcases List.mem_append.mp hx with hm | hm
                      · exact hm
                      · exfalso
                        rw [List.mem_singleton.mp hm, htlopen] at hxc
                        cases hxc
                    exact hkeep2 x hxd hxc
                  · intro u c v hdec hcc hu hbuf
                    cases u with
                    | nil =>
                      exfalso
                      rw [List.nil_append] at hdec
                      have hdec2 := List.cons.inj hdec
                      refine hbuf tl htlmem ⟨htlopen, ?_, ?_⟩
                      · rw [← hdec2.1]
                        exact hcancel.1
                      · rw [← hdec2.1]
                        exact hcancel.2
                    | cons u0 u2 =>
                      rw [List.cons_append] at hdec
                      have hdec2 := List.cons.inj hdec
                      exact hsurv2 u2 c v hdec2.2 hcc
                        (fun w hw => hu w (List.mem_cons_of_mem _ hw))
                        (fun w hw => hbuf w ((List.dropLast_sublist buffer).subset hw))
              · -- no cancellation: buffer the close
                have hp0lt : p0 < t.point := by
                  cases htlo : tl.isStart with
                  | true =>
                    rcases chkStep_some_open hcs htlo with ⟨_, hpush⟩
                    rw [hstW] at hpush
                    have hinj := List.cons.inj hpush
                    have hpl : t.payload = tl.payload := congrArg Prod.fst hinj.1
                    have hp0e : p0 = tl.point := congrArg Prod.snd hinj.1
                    have hne : tl.point ≠ t.point := by
                      intro hcontra
                      exact hcancel ⟨hpl.symm, hcontra⟩
                    rw [hp0e]
                    exact lt_of_le_of_ne htlpt hne
                  | false =>
                    rcases chkStep_some_close hcs htlo with ⟨m, hstm, hmstrict⟩
                    have hmlt : m < tl.point := hmstrict rfl
                    have hp0m : p0 ≤ m := by
                      rw [hstm] at hstmpair
                      exact List.rel_of_pairwise_cons hstmpair
                        (show (t.payload, p0) ∈ st4 from by rw [hstW]; simp)
                    exact lt_of_le_of_lt hp0m (lt_of_lt_of_le hmlt htlpt)
                have hI3b : runChk true [] (buffer ++ [t]) = some st3 := by
                  rw [runChk_append, h3]
                  simp only [Option.some_bind]
                  rw [runChk]
                  rw [hstW, show chkStep true ((t.payload, p0) :: st3) t = some st3 from
                    chkStep_close_of hstart (fun _ => hp0lt)]
                  simp only [Option.some_bind]
                  rw [runChk]
                have hM2 : Mono (buffer ++ [t]) := by
                  rw [Mono, List.pairwise_append]
                  exact ⟨h4, List.pairwise_singleton _ _,
                    fun a ha b hb => by
                      rw [List.mem_singleton.mp hb]
                      exact h5 a ha t (by simp)⟩
                have hB5b : ∀ e ∈ buffer ++ [t], ∀ x ∈ ts2, e.point ≤ x.point := by
                  intro e he x hx
                  rcases List.mem_append.mp he with hm | hm
                  · exact h5 e hm x (List.mem_cons_of_mem _ hx)
                  · rw [List.mem_singleton.mp hm]
                    exact hhead x hx
                by_cases hflush : depth - 1 = 0
                · -- buffer the close, then flush
                  have hst3nil : st3 = [] := by
                    rw [h6, hstW] at hflush
                    simp only [List.length_cons] at hflush
                    have hlen : st3.length = 0 := by
                      push_cast at hflush
                      omega
                    exact List.length_eq_zero.mp hlen
                  subst hst3nil
                  rcases ih [] 0 [] h1 hmono2 rfl List.Pairwise.nil
                    (by intro e he; cases he) rfl (fun _ => rfl) with
                    ⟨fin2, hfin2, hchk2, hmo2, hsub2, _, hsurv2⟩
                  refine ⟨(buffer ++ [t]) ++ fin2, ?_, ?_, ?_, ?_, ?_, ?_⟩
                  · rw [wetGo, if_neg hstart2, hlast]
                    simp only [Option.some_bind]
                    rw [if_pos hflush]
                    simp only [if_neg hcancel]
                    rw [hfin2]
                    rfl
                  · rw [runChk_append, hI3b]
                    simp only [Option.some_bind]
                    exact hchk2
                  · rw [Mono, List.pairwise_append]
                    refine ⟨hM2, hmo2, ?_⟩
                    intro a ha b hb
                    have hbmem : b ∈ ts2 := by
                      have := hsub2.subset hb
                      simpa using this
                    exact hB5b a ha b hbmem
                  · have hassoc : (buffer ++ [t]) ++ fin2 = buffer ++ (t :: fin2) := by
                      simp
                    rw [hassoc]
                    refine List.Sublist.append (List.Sublist.refl buffer) ?_
                    refine List.Sublist.cons₂ t ?_
                    have := hsub2
                    rw [List.nil_append] at this
                    exact this
                  · intro x hx hxc
                    exact List.mem_append.mpr
                      (Or.inl (List.mem_append.mpr (Or.inl hx)))
                  · intro u c v hdec hcc hu hbuf
                    cases u with
                    | nil =>
                      rw [List.nil_append] at hdec
                      have hdec2 := List.cons.inj hdec
                      rw [← hdec2.1]
                      exact List.mem_append.mpr
                        (Or.inl (List.mem_append.mpr (Or.inr (by simp))))
                    | cons u0 u2 =>
                      rw [List.cons_append] at hdec
                      have hdec2 := List.cons.inj hdec
                      have hcf : c ∈ fin2 :=
                        hsurv2 u2 c v hdec2.2 hcc
                          (fun w hw => hu w (List.mem_cons_of_mem _ hw))
                          (fun w hw => by cases hw)
                      exact List.mem_append.mpr (Or.inr hcf)
                · -- buffer the close and continue
                  have hst3ne : st3 ≠ [] := by
                    intro hcontra
                    apply hflush
                    rw [h6, hstW, hcontra]
                    simp
                  have hd6 : depth - 1 = (st3.length : Int) := by
                    rw [h6, hstW]
                    simp
                  rcases ih (buffer ++ [t]) (depth - 1) st3 h1 hmono2 hI3b hM2 hB5b
                    hd6 (fun hcontra => absurd hcontra hst3ne) with
                    ⟨fin2, hfin2, hchk2, hmo2, hsub2, hkeep2, hsurv2⟩
                  refine ⟨fin2, ?_, hchk2, hmo2, ?_, ?_, ?_⟩
                  · rw [wetGo, if_neg hstart2, hlast]
                    simp only [Option.some_bind]
                    rw [if_neg hflush]
                    simp only [if_neg hcancel]
                    exact hfin2
                  · have hassoc : (buffer ++ [t]) ++ ts2 = buffer ++ (t :: ts2) := by
                      simp
                    rw [← hassoc]
                    exact hsub2
                  · intro x hx hxc
                    exact hkeep2 x (List.mem_append.mpr (Or.inl hx)) hxc
                  · intro u c v hdec hcc hu hbuf
                    cases u with
                    | nil =>
                      rw [List.nil_append] at hdec
                      have hdec2 := List.cons.inj hdec
                      rw [← hdec2.1]
                      refine hkeep2 t (List.mem_append.mpr (Or.inr (by simp))) hstart
                    | cons u0 u2 =>
                      rw [List.cons_append] at hdec
                      have hdec2 := List.cons.inj hdec
                      refine hsurv2 u2 c v hdec2.2 hcc
                        (fun w hw => hu w (List.mem_cons_of_mem _ hw)) ?_
                      intro w hw
                      rcases List.mem_append.mp hw with hm | hm
                      · exact hbuf w hm
                      · rw [List.mem_singleton.mp hm]
                        intro hcontra
                        rw [hstart] at hcontra
                        exact Bool.false_ne_true hcontra.1


/-! ### C1: `balanced_tags` on a sorted well-formed stream -/

/-- A small concrete stream used to witness C1: one region span `[0, 1)`. -/
def c1ExampleTags : List Tag :=
  [⟨0, true, Payload.region 0 []⟩, ⟨1, false, Payload.region 0 []⟩]

/-- **C1.**  For every input tag stream sorted by offset (`Mono`) in which
each payload's open boundary precedes its close boundary and no payload is
re-opened while it is open (`wfFrom []`), `balanced_tags` succeeds, and its
output passes the strict nesting checker started from the empty stack — i.e.
every close matches the most recent unmatched open of the same payload
identity with no intervening unmatched boundary, the sweep ends with an empty
stack, and no surviving (open, close) pair of the same payload identity has
equal offsets (the strict checker requires the close's offset to exceed its
open's).  Moreover at every prefix of the output the number of closes is at
most the number of opens, globally the totals are equal, and the output is
still sorted by offset. -/
theorem c1_balanced_tags (ts : List Tag)
    (hwf : wfFrom [] ts = true) (hmono : Mono ts) :
    ∃ fin, balanced_tags ts = some fin ∧
      runChk true [] fin = some [] ∧
      Mono fin ∧
      (∀ pre suf, fin = pre ++ suf → closesCount pre ≤ opensCount pre) ∧
      opensCount fin = closesCount fin := by
  rcases btweGo_ok ts [] [] rfl List.nodup_nil hwf hmono
    (by intro e he; cases he) with
    ⟨out, hout, hchk0, hmono0, _, _⟩
  rcases wetGo_ok out [] 0 [] hchk0 hmono0 rfl List.Pairwise.nil
    (by intro e he; cases he) rfl (fun _ => rfl) with
    ⟨fin, hfin, hchk, hmo, _, _, _⟩
  refine ⟨fin, ?_, hchk, hmo, ?_, runChk_global_balance true fin hchk⟩
  · rw [balanced_tags, balanced_tags_with_empties, hout]
    simp only [Option.some_bind]
    rw [without_empty_tags]
    exact hfin
  · intro pre suf hdec
    exact runChk_prefix_balance true pre suf (hdec ▸ hchk)

/-- Witness for C1 at the concrete stream `c1ExampleTags`. -/
theorem c1_balanced_tags_witness :
    ∃ fin, balanced_tags c1ExampleTags = some fin ∧
      runChk true [] fin = some [] ∧
      Mono fin ∧
      (∀ pre suf, fin = pre ++ suf → closesCount pre ≤ opensCount pre) ∧
      opensCount fin = closesCount fin :=
  c1_balanced_tags c1ExampleTags (by decide) (by decide)

/-! ### C4: `remove_overlapping_refs`

`non_overlapping_refs` scans the stream with a blacklist of overlapping
anchors and the currently open kept anchor; `remove_overlapping_refs`
compresses the list by the yielded flags and truncates it in place at `i + 1`
where `i` is the enumeration index of the last yielded element — on an empty
compressed result the loop never runs, `i` is unbound, and the `del` raises
`NameError`, modelled as `none`. -/

/-- Whether a payload is a `Ref` (Python `isinstance(payload, Ref)`). -/
def Payload.isRef : Payload → Bool
  | Payload.ref _ _ => true
  | _ => false

/-- The flag generator of `non_overlapping_refs`, with the `blacklist` and
`open_ref` state explicit.  A close arriving when `open_ref is None` fails the
`assert is_start`, modelled as `none`. -/
def norGo : List Payload → Option Payload → List Tag → Option (List Bool)
  | _, _, [] => some []
  | bl, op, t :: ts =>
    if t.payload.isRef then
      if decide (t.payload ∈ bl) then
        (norGo (bl.erase t.payload) op ts).map fun r => false :: r
      else if op = none then
        if t.isStart then (norGo bl (some t.payload) ts).map fun r => true :: r
        else none
      else if op = some t.payload then
        (norGo bl none ts).map fun r => true :: r
      else
        (norGo (t.payload :: bl) op ts).map fun r => false :: r
    else (norGo bl op ts).map fun r => true :: r

/-- `non_overlapping_refs(tags)` from `build.py`. -/
def non_overlapping_refs (tags : List Tag) : Option (List Bool) :=
  norGo [] none tags

/-- `itertools.compress`: keep the elements whose flag is true. -/
def compress : List Tag → List Bool → List Tag
  | [], _ => []
  | _ :: _, [] => []
  | x :: xs, b :: bs => if b then x :: compress xs bs else compress xs bs

/-- `remove_overlapping_refs(tags)` from `build.py`: overwrite the prefix of
`tags` with the compressed stream and truncate; the truncation index is
unbound when the compressed stream is empty (`NameError`). -/
def remove_overlapping_refs (tags : List Tag) : Option (List Tag) :=
  (non_overlapping_refs tags).bind fun flags =>
    if compress tags flags = [] then none else some (compress tags flags)

/-- Well-formedness of the anchor boundaries of a stream: each `Ref` payload
opens at most once, while neither open nor closed, and closes only while
open; at the end of the stream no anchor is left open. -/
def refSeqWF : List Payload → List Payload → List Tag → Bool
  | opened, _, [] => opened.isEmpty
  | opened, closed, t :: ts =>
    if t.payload.isRef then
      if t.isStart then
        !(decide (t.payload ∈ opened)) && !(decide (t.payload ∈ closed)) &&
          refSeqWF (t.payload :: opened) closed ts
      else
        decide (t.payload ∈ opened) &&
          refSeqWF (opened.erase t.payload) (t.payload :: closed) ts
    else refSeqWF opened closed ts

/-- The anchor boundaries of a stream alternate open/close with matching
payloads, starting from the given currently open anchor, and end closed. -/
def refsMatched : Option Payload → List Tag → Bool
  | none, [] => true
  | some _, [] => false
  | none, t :: ts => t.isStart && refsMatched (some t.payload) ts
  | some p, t :: ts => !t.isStart && (t.payload == p) && refsMatched none ts

/-- The claim's greedy description of the surviving boundaries, written from
the spec's words rather than the code: walk the stream remembering the
currently open kept anchor; an anchor opening while no kept anchor is open
is kept together with its later close; an anchor opening while a kept anchor
is open is dropped, and so is its later close; `Line` and `Region`
boundaries pass through unchanged.  `remove_overlapping_refs` is proved to
return exactly this list. -/
def specKeep : Option Payload → List Tag → List Tag
  | _, [] => []
  | op, t :: ts =>
    if t.payload.isRef then
      if op = none then
        (if t.isStart then t :: specKeep (some t.payload) ts
         else specKeep none ts)
      else if t.isStart then specKeep op ts
      else if op = some t.payload then t :: specKeep none ts
      else specKeep op ts
    else t :: specKeep op ts

theorem norGo_ok :
    ∀ (ts : List Tag) (opened closed bl : List Payload) (op : Option Payload),
      refSeqWF opened closed ts = true →
      opened.Nodup → bl.Nodup →
      (∀ p, p ∈ opened ↔ (p ∈ bl ∨ op = some p)) →
      (∀ p, op = some p → p ∉ bl) →
      ∃ flags, norGo bl op ts = some flags ∧
        ((compress ts flags).filter fun t => !t.payload.isRef)
          = ts.filter (fun t => !t.payload.isRef) ∧
        (compress ts flags).Sublist ts ∧
        refsMatched op ((compress ts flags).filter fun t => t.payload.isRef)
          = true ∧
        (∀ u c v, ts = u ++ c :: v → c.payload.isRef = true →
          (∀ w ∈ u, w.payload.isRef = false) → bl = [] → op = none →
          c ∈ compress ts flags) ∧
        compress ts flags = specKeep op ts := by
  intro ts
  induction ts with
  | nil =>
    intro opened closed bl op hwf hno hnb hI1 hI3
    have hopened : opened = [] := by
      rw [refSeqWF] at hwf
      exact List.isEmpty_iff.mp hwf
    have hop : op = none := by
      cases hopc : op with
      | none => rfl
      | some p =>
        exfalso
        have : p ∈ opened := (hI1 p).mpr (Or.inr hopc)
        rw [hopened] at this
        cases this
    refine ⟨[], rfl, rfl, List.Sublist.refl [], ?_, ?_, rfl⟩
    · rw [hop]
      rfl
    · intro u c v hdec
      exact absurd hdec (by cases u <;> simp)
  | cons t ts ih =>
    intro opened closed bl op hwf hno hnb hI1 hI3
    rw [refSeqWF] at hwf
    by_cases href : t.payload.isRef = true
    · rw [if_pos href] at hwf
      cases hcs : t.isStart with
      | true =>
        -- an anchor open
        rw [hcs, if_pos rfl] at hwf
        simp only [Bool.and_eq_true, Bool.not_eq_true', decide_eq_false_iff_not]
          at hwf
        have hnotop : t.payload ∉ opened := hwf.1.1
        have hnotbl : t.payload ∉ bl := fun hmem =>
          hnotop ((hI1 t.payload).mpr (Or.inl hmem))
        cases hopc : op with
        | none =>
          -- kept: it becomes the open anchor
          rcases ih (t.payload :: opened) closed bl (some t.payload) hwf.2
            (List.nodup_cons.mpr ⟨hnotop, hno⟩) hnb
            (by
              intro p
              constructor
              · intro hp
                rcases List.mem_cons.mp hp with hp | hp
                · exact Or.inr (by rw [hp])
                · rcases (hI1 p).mp hp with hp2 | hp2
                  · exact Or.inl hp2
                  · rw [hopc] at hp2; cases hp2
              · intro hp
                rcases hp with hp | hp
                · exact List.mem_cons_of_mem _ ((hI1 p).mpr (Or.inl hp))
                · rw [Option.some.inj hp]
                  exact List.mem_cons_self _ _)
            (by
              intro p hp
              rw [← Option.some.inj hp]
              exact hnotbl) with
            ⟨rest, hrest, hfil, hsub, hmat, hfirst, hkspec⟩
          refine ⟨true :: rest, ?_, ?_, ?_, ?_, ?_, ?_⟩
          · rw [norGo, if_pos href,
              if_neg (by simp only [decide_eq_true_eq]; exact hnotbl),
              if_pos rfl, hcs, if_pos rfl, hrest]
            rfl
          · show List.filter _ (t :: compress ts rest) = _
            simp only [List.filter_cons, href]
            exact hfil
          · exact List.Sublist.cons₂ t hsub
          · show refsMatched none (List.filter _ (t :: compress ts rest)) = true
            simp only [List.filter_cons, href, if_pos]
            rw [refsMatched, hcs]
            simp only [Bool.true_and]
            exact hmat
          · intro u c v hdec hcc hu hbl2 hop2
            cases u with
            | nil =>
              have hdec2 := List.cons.inj hdec
              rw [← hdec2.1]
              show t ∈ t :: compress ts rest
              exact List.mem_cons_self _ _
            | cons u0 u2 =>
              exfalso
              have hdec2 := List.cons.inj hdec
              have : u0.payload.isRef = false := hu u0 (List.mem_cons_self _ _)
              rw [← hdec2.1, href] at this
              cases this
          · show t :: compress ts rest = specKeep none (t :: ts)
            rw [specKeep, if_pos href, if_pos rfl, if_pos hcs, hkspec]
        | some q =>
          -- overlapping open: blacklisted and dropped
          rw [hopc] at hI1 hI3
          have hqop : q ∈ opened := (hI1 q).mpr (Or.inr rfl)
          have hneq : ¬(some q = some t.payload) := by
            intro hcontra
            rw [Option.some.inj hcontra] at hqop
            exact hnotop hqop
          rcases ih (t.payload :: opened) closed (t.payload :: bl) (some q) hwf.2
            (List.nodup_cons.mpr ⟨hnotop, hno⟩)
            (List.nodup_cons.mpr ⟨hnotbl, hnb⟩)
            (by
              intro p
              rw [List.mem_cons, List.mem_cons]
              constructor
              · intro hp
                rcases hp with hp | hp
                · exact Or.inl (Or.inl hp)
                · rcases (hI1 p).mp hp with hp2 | hp2
                  · exact Or.inl (Or.inr hp2)
                  · exact Or.inr hp2
              · intro hp
                rcases hp with hp | hp
                · rcases hp with hp2 | hp2
                  · exact Or.inl hp2
                  · exact Or.inr ((hI1 p).mpr (Or.inl hp2))
                · exact Or.inr ((hI1 p).mpr (Or.inr hp)))
            (by
              intro p hp hmem
              rcases List.mem_cons.mp hmem with hp2 | hp2
              · exact hneq (by rw [hp, hp2])
              · exact hI3 p hp hp2) with
            ⟨rest, hrest, hfil, hsub, hmat, hfirst, hkspec⟩
          refine ⟨false :: rest, ?_, ?_, ?_, ?_, ?_, ?_⟩
          · rw [norGo, if_pos href,
              if_neg (by simp only [decide_eq_true_eq]; exact hnotbl),
              if_neg (by intro hcontra; cases hcontra),
              if_neg hneq, hrest]
            rfl
          · show List.filter _ (compress ts rest) = _
            simp only [List.filter_cons, href]
            exact hfil
          · exact List.Sublist.cons t hsub
          · exact hmat
          · intro u c v hdec hcc hu hbl2 hop2
            cases hop2
          · show compress ts rest = specKeep (some q) (t :: ts)
            rw [specKeep, if_pos href,
              if_neg (by intro hcontra; cases hcontra), if_pos hcs]
            exact hkspec
      | false =>
        -- an anchor close
        rw [hcs, if_neg (by simp)] at hwf
        simp only [Bool.and_eq_true, decide_eq_true_eq] at hwf
        have hop2 : t.payload ∈ opened := hwf.1
        by_cases hbl : t.payload ∈ bl
        · -- the evil close of a blacklisted anchor: dropped, unblacklisted
          rcases ih (opened.erase t.payload) (t.payload :: closed)
            (bl.erase t.payload) op hwf.2 (List.Nodup.erase _ hno)
            (List.Nodup.erase _ hnb)
            (by
              intro p
              rw [List.Nodup.mem_erase_iff hno, List.Nodup.mem_erase_iff hnb]
              constructor
              · intro hp
                rcases (hI1 p).mp hp.2 with hp2 | hp2
                · exact Or.inl ⟨hp.1, hp2⟩
                · exact Or.inr hp2
              · intro hp
                rcases hp with hp | hp
                · exact ⟨hp.1, (hI1 p).mpr (Or.inl hp.2)⟩
                · refine ⟨?_, (hI1 p).mpr (Or.inr hp)⟩
                  intro hcontra
                  exact hI3 p hp (hcontra ▸ hbl)
              )
            (fun p hp hmem => hI3 p hp (List.mem_of_mem_erase hmem)) with
            ⟨rest, hrest, hfil, hsub, hmat, hfirst, hkspec⟩
          refine ⟨false :: rest, ?_, ?_, ?_, ?_, ?_, ?_⟩
          · rw [norGo, if_pos href,
              if_pos (by simp only [decide_eq_true_eq]; exact hbl), hrest]
            rfl
          · show List.filter _ (compress ts rest) = _
            simp only [List.filter_cons, href]
            exact hfil
          · exact List.Sublist.cons t hsub
          · exact hmat
          · intro u c v hdec hcc hu hbl2 hop3
            rw [hbl2] at hbl
            cases hbl
          · show compress ts rest = specKeep op (t :: ts)
            by_cases hopn : op = none
            · rw [specKeep, if_pos href, if_pos hopn,
                if_neg (by rw [hcs]; exact Bool.false_ne_true)]
              rw [hopn] at hkspec
              exact hkspec
            · rw [specKeep, if_pos href, if_neg hopn,
                if_neg (by rw [hcs]; exact Bool.false_ne_true),
                if_neg (by intro hcontra; exact hI3 t.payload hcontra hbl)]
              exact hkspec
        · -- the close of the open kept anchor
          have hopeq : op = some t.payload := by
            rcases (hI1 t.payload).mp hop2 with hp | hp
            · exact absurd hp hbl
            · exact hp
          rcases ih (opened.erase t.payload) (t.payload :: closed) bl none
            hwf.2 (List.Nodup.erase _ hno) hnb
            (by
              intro p
              rw [List.Nodup.mem_erase_iff hno]
              constructor
              · intro hp
                rcases (hI1 p).mp hp.2 with hp2 | hp2
                · exact Or.inl hp2
                · exfalso
                  rw [hopeq] at hp2
                  exact hp.1 (Option.some.inj hp2).symm
              · intro hp
                rcases hp with hp | hp
                · refine ⟨?_, (hI1 p).mpr (Or.inl hp)⟩
                  intro hcontra
                  exact hI3 t.payload hopeq (hcontra ▸ hp)
                · cases hp
              )
            (fun p hp => by cases hp) with
            ⟨rest, hrest, hfil, hsub, hmat, hfirst, hkspec⟩
          refine ⟨true :: rest, ?_, ?_, ?_, ?_, ?_, ?_⟩
          · rw [norGo, if_pos href,
              if_neg (by simp only [decide_eq_true_eq]; exact hbl),
              if_neg (by rw [hopeq]; intro hcontra; cases hcontra),
              if_pos hopeq, hrest]
            rfl
          · show List.filter _ (t :: compress ts rest) = _
            simp only [List.filter_cons, href]
            exact hfil
          · exact List.Sublist.cons₂ t hsub
          · show refsMatched op (List.filter _ (t :: compress ts rest)) = true
            simp only [List.filter_cons, href, if_pos]
            rw [hopeq, refsMatched, hcs]
            simp only [Bool.not_false, Bool.true_and, beq_self_eq_true]
            exact hmat
          · intro u c v hdec hcc hu hbl2 hop3
            rw [hopeq] at hop3
            cases hop3
          · show t :: compress ts rest = specKeep op (t :: ts)
            rw [specKeep, if_pos href,
              if_neg (by rw [hopeq]; intro hcontra; cases hcontra),
              if_neg (by rw [hcs]; exact Bool.false_ne_true),
              if_pos hopeq, hkspec]
    · -- not an anchor: passed through with a true flag
      have hreff : t.payload.isRef = false := by
        cases h : t.payload.isRef with
        | true => exact absurd h href
        | false => rfl
      rw [if_neg href] at hwf
      rcases ih opened closed bl op hwf hno hnb hI1 hI3 with
        ⟨rest, hrest, hfil, hsub, hmat, hfirst, hkspec⟩
      refine ⟨true :: rest, ?_, ?_, ?_, ?_, ?_, ?_⟩
      · rw [norGo, if_neg href, hrest]
        rfl
      · show List.filter _ (t :: compress ts rest) = _
        simp only [List.filter_cons, hreff]
        simp only [Bool.not_false, if_pos]
        rw [hfil]
      · exact List.Sublist.cons₂ t hsub
      · show refsMatched op (List.filter _ (t :: compress ts rest)) = true
        simp only [List.filter_cons, hreff]
        exact hmat
      · intro u c v hdec hcc hu hbl2 hop3
        cases u with
        | nil =>
          exfalso
          have hdec2 := List.cons.inj hdec
          rw [← hdec2.1, hreff] at hcc
          cases hcc
        | cons u0 u2 =>
          have hdec2 := List.cons.inj hdec
          have hmem : c ∈ compress ts rest :=
            hfirst u2 c v hdec2.2 hcc
              (fun w hw => hu w (List.mem_cons_of_mem _ hw)) hbl2 hop3
          show c ∈ t :: compress ts rest
          exact List.mem_cons_of_mem _ hmem
      · show t :: compress ts rest = specKeep op (t :: ts)
        rw [specKeep, if_neg href, hkspec]


/-- **C4, counterexample.**  The claim quantifies over every sorted stream in
which each anchor's open precedes its close; the empty stream satisfies that
vacuously, yet `remove_overlapping_refs` does not return it unchanged: the
`for i, tag in enumerate(compress(...))` loop never runs, so the trailing
`del tags[i + 1:]` reads the unbound loop variable `i` and raises `NameError`
(modelled as `none`). -/
theorem c4_counterexample : remove_overlapping_refs [] = none := rfl

/-- A concrete stream for the C4 witness: two overlapping anchors. -/
def c4ExampleTags : List Tag :=
  [⟨0, true, Payload.ref 1 []⟩, ⟨1, true, Payload.ref 2 []⟩,
   ⟨2, false, Payload.ref 1 []⟩, ⟨3, false, Payload.ref 2 []⟩]

/-- **C4, amended.**  For every nonempty stream sorted by offset in which
each anchor opens at most once, before its close, and every opened anchor is
closed, `remove_overlapping_refs` succeeds and keeps exactly the boundaries
the claim describes — the result equals `specKeep none tags`, the greedy
reference written from the claim's words: every `Line` and `Region` boundary
is kept unchanged, an anchor opening while no kept anchor is open is kept
together with its later close, and an anchor opening while a kept anchor is
open is dropped together with its later close.  In addition the result is an
order-preserving subsequence, its non-`Ref` boundaries are exactly those of
the input, the kept anchor boundaries alternate open/close with matching
payloads (a properly matched set in which no two kept anchors overlap), and
the first anchor boundary of the stream is kept. -/
theorem c4_remove_overlapping_refs_amended (tags : List Tag)
    (hne : tags ≠ []) (hmono : Mono tags)
    (hwf : refSeqWF [] [] tags = true) :
    ∃ kept, remove_overlapping_refs tags = some kept ∧
      kept = specKeep none tags ∧
      kept.Sublist tags ∧
      (kept.filter fun t => !t.payload.isRef)
        = (tags.filter fun t => !t.payload.isRef) ∧
      refsMatched none (kept.filter fun t => t.payload.isRef) = true ∧
      (∀ u c v, tags = u ++ c :: v → c.payload.isRef = true →
        (∀ w ∈ u, w.payload.isRef = false) → c ∈ kept) := by
  rcases norGo_ok tags [] [] [] none hwf List.nodup_nil List.nodup_nil
    (by intro p; simp) (by intro p hp; cases hp) with
    ⟨flags, hflags, hfil, hsub, hmat, hfirst, hkspec⟩
  have hkeptne : compress tags flags ≠ [] := by
    cases htags : tags with
    | nil => exact absurd htags hne
    | cons t ts2 =>
      intro hnil
      by_cases href : t.payload.isRef = true
      · have := hfirst [] t ts2 htags href (by intro w hw; cases hw) rfl rfl
        rw [htags, hnil] at this
        cases this
      · have hreff : t.payload.isRef = false := by
          cases h : t.payload.isRef with
          | true => exact absurd h href
          | false => rfl
        have := hfil
        rw [htags, hnil, List.filter_cons] at this
        simp only [hreff, Bool.not_false, if_pos, List.filter_nil] at this
        cases this
  refine ⟨compress tags flags, ?_, hkspec, hsub, hfil, hmat, ?_⟩
  · rw [remove_overlapping_refs, non_overlapping_refs, hflags]
    simp only [Option.some_bind]
    rw [if_neg hkeptne]
  · intro u c v hdec hcc hu
    exact hfirst u c v hdec hcc hu rfl rfl

/-- Witness for the amended C4 at `c4ExampleTags`. -/
theorem c4_remove_overlapping_refs_amended_witness :
    ∃ kept, remove_overlapping_refs c4ExampleTags = some kept ∧
      kept = specKeep none c4ExampleTags ∧
      kept.Sublist c4ExampleTags ∧
      (kept.filter fun t => !t.payload.isRef)
        = (c4ExampleTags.filter fun t => !t.payload.isRef) ∧
      refsMatched none (kept.filter fun t => t.payload.isRef) = true ∧
      (∀ u c v, c4ExampleTags = u ++ c :: v → c.payload.isRef = true →
        (∀ w ∈ u, w.payload.isRef = false) → c ∈ kept) :=
  c4_remove_overlapping_refs_amended c4ExampleTags (by decide) (by decide)
    (by decide)


/-! ### C7: the slice handling of `html_lines`

`html_lines` is modelled as a fold over the tag stream with the state
`(up_to, segments, line_ends_at)`; each yielded line is the `''.join` of the
flushed segments.  A `ref` payload's data models the `json.dumps(menu)`
serialization of the opaque menu object. -/

/-- Whether a character is in the strip set `u'\r\n'`. -/
def isTermChar (c : Char) : Bool := c = '\r' || c = '\n'

/-- Python `s.rstrip(u'\r\n')`: trailing `\r`/`\n` removed. -/
def rstripCRLF (s : List Char) : List Char :=
  (s.reverse.dropWhile isTermChar).reverse

/-- Python `s.strip(u'\r\n')`: leading and trailing `\r`/`\n` removed —
this is what the code calls. -/
def stripCRLF (s : List Char) : List Char :=
  rstripCRLF (s.dropWhile isTermChar)

/-- One character of `cgi.escape(s)` (no quote escaping). -/
def escapeChar (c : Char) : List Char :=
  if c = '&' then "&amp;".toList
  else if c = '<' then "&lt;".toList
  else if c = '>' then "&gt;".toList
  else [c]

/-- `cgi.escape(s)`. -/
def cgi_escape (s : List Char) : List Char := (s.map escapeChar).flatten

/-- One character of `cgi.escape(s, True)` (quotes escaped too). -/
def escapeCharQ (c : Char) : List Char :=
  if c = '&' then "&amp;".toList
  else if c = '<' then "&lt;".toList
  else if c = '>' then "&gt;".toList
  else if c = '\"' then "&quot;".toList
  else [c]

/-- `cgi.escape(s, True)`. -/
def cgi_escape_q (s : List Char) : List Char := (s.map escapeCharQ).flatten

/-- Whether a payload is the `Line` marker. -/
def Payload.isLine : Payload → Bool
  | Payload.line => true
  | _ => false

/-- `payload.opener()`: `Region` and `Ref` render their opening tag
(`html_lines` never calls it on a `Line`). -/
def Payload.opener : Payload → List Char
  | Payload.line => []
  | Payload.region _ d => "<span class=\"".toList ++ cgi_escape_q d ++ "\">".toList
  | Payload.ref _ d => "<a data-menu=\"".toList ++ cgi_escape_q d ++ "\">".toList

/-- `payload.closer()`. -/
def Payload.closer : Payload → List Char
  | Payload.line => []
  | Payload.region _ _ => "</span>".toList
  | Payload.ref _ _ => "</a>".toList

/-- The loop state of `html_lines`. -/
structure HLState where
  up_to : Int
  segments : List (List Char)
  line_ends_at : Option Int
  deriving Repr, DecidableEq

/-- One iteration of the `html_lines` loop: append the escaped, stripped
slice, advance `up_to`, maybe flush a finished line, then either note a line
end or append the payload's opening/closing tag.  Returns the new state and
the lines yielded during the iteration. -/
def hlStep (slicer : Int → Int → List Char) (st : HLState) (t : Tag) :
    HLState × List (List Char) :=
  let segs1 := st.segments ++ [cgi_escape (stripCRLF (slicer st.up_to t.point))]
  let flushP : Bool :=
    match st.line_ends_at with
    | none => false
    | some e => t.isStart || decide (e < t.point)
  let out := if flushP then (if segs1 = [] then [] else [segs1.flatten]) else []
  let segs2 := if flushP then [] else segs1
  let lea2 := if flushP then none else st.line_ends_at
  if t.payload.isLine then
    if t.isStart then (⟨t.point, segs2, lea2⟩, out)
    else (⟨t.point, segs2, some t.point⟩, out)
  else
    (⟨t.point,
      segs2 ++ [if t.isStart then t.payload.opener else t.payload.closer],
      lea2⟩, out)

/-- The tail of `html_lines`: fold the loop, then flush any leftover
segments. -/
def hlRun (slicer : Int → Int → List Char) : HLState → List Tag → List (List Char)
  | st, [] => if st.segments = [] then [] else [st.segments.flatten]
  | st, t :: ts => (hlStep slicer st t).2 ++ hlRun slicer (hlStep slicer st t).1 ts

/-- `html_lines(tags, slicer)` from `build.py`. -/
def html_lines (slicer : Int → Int → List Char) (tags : List Tag) :
    List (List Char) :=
  hlRun slicer ⟨0, [], none⟩ tags

/-- `text[start:end]` for the nonnegative indices `html_lines` uses. -/
def pySlice (l : List Char) (s e : Int) : List Char :=
  (l.take e.toNat).drop s.toNat

/-- The text witnessing C7: a line terminator at the start of a slice. -/
def c7Text : List Char := '\n' :: ['a']

/-- **C7, counterexample.**  On the text `"\na"` with a single region open
boundary at offset 2, the segment `html_lines` renders for the slice
`text[0:2]` is the escape of the both-ends-stripped slice — the leading
`\n`, which is not a trailing terminator, is removed too — and that differs
from the claim's trailing-only trim: the code strips with
`.strip(u'\r\n')`, not `.rstrip`. -/
theorem c7_counterexample :
    html_lines (pySlice c7Text) [⟨2, true, Payload.region 0 []⟩]
      = [cgi_escape (stripCRLF (pySlice c7Text 0 2))
          ++ (Payload.region 0 []).opener] ∧
    cgi_escape (stripCRLF (pySlice c7Text 0 2))
      ≠ cgi_escape (rstripCRLF (pySlice c7Text 0 2)) := by
  constructor
  · rfl
  · decide

/-- **C7, amended.**  For every slicer, state and boundary, the `html_lines`
loop body appends to the running text (yielded lines plus pending segments)
exactly the HTML-escaped source slice from `up_to` to `point` with `\r` and
`\n` stripped from BOTH ends, followed by nothing, the payload's opening
tag, or its closing tag — and sets `up_to` to `point`. -/
theorem c7_html_lines_amended (slicer : Int → Int → List Char)
    (st : HLState) (t : Tag) :
    (hlStep slicer st t).1.up_to = t.point ∧
    ∃ rendered,
      (rendered = [] ∨ rendered = t.payload.opener ∨
        rendered = t.payload.closer) ∧
      ((hlStep slicer st t).2.flatten
          ++ ((hlStep slicer st t).1.segments).flatten)
        = st.segments.flatten
            ++ cgi_escape (stripCRLF (slicer st.up_to t.point)) ++ rendered := by
  rcases st with ⟨u, segs, lea⟩
  rcases t with ⟨pt, bs, pl⟩
  cases pl with
  | line =>
    cases bs <;> cases lea <;>
      refine ⟨rfl, [], Or.inl rfl, ?_⟩ <;>
      first
        | (simp [hlStep, Payload.isLine, List.flatten_append]; done)
        | (rename_i e
           by_cases hd : e < pt <;>
             simp [hlStep, Payload.isLine, hd, List.flatten_append])
  | region n d =>
    cases bs with
    | false =>
      cases lea <;>
        refine ⟨rfl, (Payload.region n d).closer, Or.inr (Or.inr rfl), ?_⟩ <;>
        first
          | (simp [hlStep, Payload.isLine, List.flatten_append]; done)
          | (rename_i e
             by_cases hd : e < pt <;>
               simp [hlStep, Payload.isLine, hd, List.flatten_append])
    | true =>
      cases lea <;>
        refine ⟨rfl, (Payload.region n d).opener, Or.inr (Or.inl rfl), ?_⟩ <;>
        first
          | (simp [hlStep, Payload.isLine, List.flatten_append]; done)
          | (rename_i e
             by_cases hd : e < pt <;>
               simp [hlStep, Payload.isLine, hd, List.flatten_append])
  | ref n d =>
    cases bs with
    | false =>
      cases lea <;>
        refine ⟨rfl, (Payload.ref n d).closer, Or.inr (Or.inr rfl), ?_⟩ <;>
        first
          | (simp [hlStep, Payload.isLine, List.flatten_append]; done)
          | (rename_i e
             by_cases hd : e < pt <;>
               simp [hlStep, Payload.isLine, hd, List.flatten_append])
    | true =>
      cases lea <;>
        refine ⟨rfl, (Payload.ref n d).opener, Or.inr (Or.inl rfl), ?_⟩ <;>
        first
          | (simp [hlStep, Payload.isLine, List.flatten_append]; done)
          | (rename_i e
             by_cases hd : e < pt <;>
               simp [hlStep, Payload.isLine, hd, List.flatten_append])

/-! ### C9: `_sliced_range_bounds` and the HTML worker tasks

The Python generator loops `while this_min == a or this_max < b`; the first
test always short-circuits on `this_min == a`, so `this_max` is never read
unbound.  The loop is modelled with explicit fuel (it would not terminate
for `b < a`, which the claim excludes); the initial `this_max` argument is a
dummy that the first test ignores. -/

/-- The loop of `_sliced_range_bounds(a, b, slice_size)`. -/
def slicedGo (a b s : Int) : Nat → Int → Int → Option (List (Int × Int))
  | 0, _, _ => none
  | fuel + 1, this_min, this_max =>
    if this_min = a ∨ this_max < b then
      (slicedGo a b s fuel (min b (this_min + s - 1) + 1)
          (min b (this_min + s - 1))).map
        fun r => (this_min, min b (this_min + s - 1)) :: r
    else some []

/-- `_sliced_range_bounds(a, b, slice_size)` from `build.py`, as the list of
yielded `(min, max)` pairs. -/
def sliced_range_bounds (a b s : Int) (fuel : Nat) : Option (List (Int × Int)) :=
  slicedGo a b s fuel a a

/-- The `(start, end)` arguments of the decoration tasks `run_html_workers`
submits: one `_build_html_for_file_ids` job per yielded slice of
`_sliced_range_bounds(1, max_file_id, 500)`. -/
def run_html_workers_tasks (max_file_id : Int) : Option (List (Int × Int)) :=
  sliced_range_bounds 1 max_file_id 500 (max_file_id.toNat + 1)

/-- The C9 partition property of a slice list `rs` for the interval `[t, b]`:
it covers exactly `[t, b]`, the slices are pairwise disjoint and in order,
each is nonempty of size at most 500, consecutive slices are contiguous and
every slice with a successor has size exactly 500, the first slice starts at
`t` and the last ends at `b`. -/
def SlicedSpec (b t : Int) (rs : List (Int × Int)) : Prop :=
  (∀ x, (t ≤ x ∧ x ≤ b) ↔ ∃ r ∈ rs, r.1 ≤ x ∧ x ≤ r.2) ∧
  rs.Pairwise (fun r q => r.2 < q.1) ∧
  (∀ r ∈ rs, r.1 ≤ r.2 ∧ r.2 - r.1 + 1 ≤ 500) ∧
  List.Chain' (fun r q => q.1 = r.2 + 1 ∧ r.2 - r.1 + 1 = 500) rs ∧
  (∀ r ∈ rs, t ≤ r.1) ∧
  (rs = [] ↔ b < t) ∧
  (∀ hne : ¬rs = [], (rs.head hne).1 = t ∧ (rs.getLast hne).2 = b)

theorem slicedSpec_cons (b t m : Int) (ht : t ≤ b)
    (hm1 : t ≤ m) (hm2 : m ≤ b) (hm3 : m ≤ t + 499) (hm4 : m < b → m = t + 499)
    (rest : List (Int × Int)) (h : SlicedSpec b (m + 1) rest) :
    SlicedSpec b t ((t, m) :: rest) := by
  obtain ⟨hcov, hpw, hsz, hch, hlb, hemp, hends⟩ := h
  refine ⟨?_, ?_, ?_, ?_, ?_, ?_, ?_⟩
  · intro x
    constructor
    · intro hx
      by_cases hxm : x ≤ m
      · exact ⟨(t, m), List.mem_cons_self _ _, hx.1, hxm⟩
      · rcases (hcov x).mp ⟨by omega, hx.2⟩ with ⟨r, hr, hrx⟩
        exact ⟨r, List.mem_cons_of_mem _ hr, hrx⟩
    · intro hx
      rcases hx with ⟨r, hr, hrx⟩
      rcases List.mem_cons.mp hr with h | h
      · rw [h] at hrx
        have hrx2 : t ≤ x ∧ x ≤ m := hrx
        omega
      · have h2 := (hcov x).mpr ⟨r, h, hrx⟩
        omega
  · refine List.pairwise_cons.mpr ⟨?_, hpw⟩
    intro q hq
    have := hlb q hq
    show m < q.1
    omega
  · intro r hr
    rcases List.mem_cons.mp hr with h | h
    · rw [h]
      exact ⟨hm1, by show m - t + 1 ≤ 500; omega⟩
    · exact hsz r h
  · cases rest with
    | nil => exact List.chain'_singleton _
    | cons r0 rest2 =>
      have hne : ¬(r0 :: rest2 : List (Int × Int)) = [] := by simp
      have hh2 : r0.1 = m + 1 := (hends hne).1
      have hmb : m < b := by
        by_contra hc
        have hnil := hemp.mpr (by omega)
        cases hnil
      refine List.chain'_cons.mpr ⟨⟨hh2, ?_⟩, hch⟩
      show m - t + 1 = 500
      have := hm4 hmb
      omega
  · intro r hr
    rcases List.mem_cons.mp hr with h | h
    · rw [h]
    · have := hlb r h
      omega
  · constructor
    · intro hcontra
      cases hcontra
    · intro hcontra
      exact absurd hcontra (by omega)
  · intro hne
    refine ⟨rfl, ?_⟩
    cases rest with
    | nil =>
      have hb2 := hemp.mp rfl
      show m = b
      omega
    | cons r0 rest2 =>
      have hne2 : ¬(r0 :: rest2 : List (Int × Int)) = [] := by simp
      rw [List.getLast_cons hne2]
      exact (hends hne2).2

theorem slicedGo_cover (b : Int) (hb : 1 ≤ b) :
    ∀ (fuel : Nat) (t tm : Int), 2 ≤ t → tm = t - 1 → t ≤ b + 1 →
      (b + 1 - t).toNat < fuel →
      ∃ rs, slicedGo 1 b 500 fuel t tm = some rs ∧ SlicedSpec b t rs := by
  intro fuel
  induction fuel with
  | zero =>
    intro t tm h2 htm hle hf
    exact absurd hf (Nat.not_lt_zero _)
  | succ fuel ih =>
    intro t tm h2 htm hle hf
    by_cases hdone : b < t
    · refine ⟨[], ?_, ?_, List.Pairwise.nil, ?_, List.chain'_nil, ?_, ?_, ?_⟩
      · rw [slicedGo, if_neg (by omega)]
      · intro x
        constructor
        · intro hx
          exact absurd hx (by omega)
        · rintro ⟨r, hr, _⟩
          cases hr
      · intro r hr
        cases hr
      · intro r hr
        cases hr
      · exact ⟨fun _ => hdone, fun _ => rfl⟩
      · intro hne
        exact absurd rfl hne
    · push_neg at hdone
      obtain ⟨m, hm⟩ : ∃ m, min b (t + 500 - 1) = m := ⟨_, rfl⟩
      have hm2 : m ≤ b := by
        rw [← hm]
        exact min_le_left _ _
      have hm3 : m ≤ t + 500 - 1 := by
        rw [← hm]
        exact min_le_right _ _
      have hm1 : t ≤ m := by
        rw [← hm]
        exact le_min hdone (by omega)
      have hm4 : m < b → m = t + 499 := by
        intro hlt
        rcases le_total b (t + 500 - 1) with hx | hx
        · have hmb : m = b := by
            rw [← hm]
            exact min_eq_left hx
          omega
        · have hmr : m = t + 500 - 1 := by
            rw [← hm]
            exact min_eq_right hx
          omega
      rcases ih (m + 1) m (by omega) (by omega) (by omega) (by omega) with
        ⟨rest, hrest, hspec⟩
      refine ⟨(t, m) :: rest, ?_,
        slicedSpec_cons b t m hdone hm1 hm2 (by omega) hm4 rest hspec⟩
      rw [slicedGo, if_pos (Or.inr (by omega)), hm, hrest]
      rfl

/-- **C9.**  For every `max_id ≥ 1`, the `(start, end)` pairs of the
decoration tasks `run_html_workers` submits — one per slice of
`_sliced_range_bounds(1, max_id, 500)` — partition `[1, max_id]`: they cover
exactly `[1, max_id]`, are pairwise disjoint and in order, contiguous
(each next min is the previous max plus one), each of size at most 500 with
every slice except the last of size exactly 500, the first starting at 1 and
the last ending at `max_id`. -/
theorem c9_sliced_range_bounds (max_id : Int) (h1 : 1 ≤ max_id) :
    ∃ rs, run_html_workers_tasks max_id = some rs ∧ SlicedSpec max_id 1 rs := by
  obtain ⟨m, hm⟩ : ∃ m, min max_id (1 + 500 - 1) = m := ⟨_, rfl⟩
  have hm2 : m ≤ max_id := by
    rw [← hm]
    exact min_le_left _ _
  have hm3 : m ≤ 500 := by
    have := min_le_right max_id (1 + 500 - 1)
    omega
  have hm1 : 1 ≤ m := by
    rw [← hm]
    exact le_min h1 (by norm_num)
  have hm4 : m < max_id → m = 500 := by
    intro hlt
    rcases le_total max_id (1 + 500 - 1) with hx | hx
    · have hmb : m = max_id := by
        rw [← hm]
        exact min_eq_left hx
      omega
    · have hmr : m = 1 + 500 - 1 := by
        rw [← hm]
        exact min_eq_right hx
      omega
  rcases slicedGo_cover max_id h1 max_id.toNat (m + 1) m (by omega) (by omega)
    (by omega) (by omega) with ⟨rest, hrest, hspec⟩
  refine ⟨(1, m) :: rest, ?_,
    slicedSpec_cons max_id 1 m h1 hm1 hm2 (by omega)
      (fun hlt => by have := hm4 hlt; omega) rest hspec⟩
  rw [run_html_workers_tasks, sliced_range_bounds, slicedGo,
    if_pos (Or.inl rfl), hm, hrest]
  rfl

/-- Witness for C9 at `max_id = 3`. -/
theorem c9_sliced_range_bounds_witness :
    (1 : Int) ≤ 3 ∧
    ∃ rs, run_html_workers_tasks 3 = some rs ∧ SlicedSpec 3 1 rs :=
  ⟨by norm_num, c9_sliced_range_bounds 3 (by norm_num)⟩


/-! ### C8: the ignore logic of `index_files`

The source tree is a finite tree of named files (with a flag for
`dxr.mime.is_text`) and named subfolders; `os.walk(..., topdown=True)` with
the in-place `folders[:]` assignment is modelled by a recursive walk that
only descends into folders surviving `_unignored_folders`.  The walk takes
explicit fuel bounding the descent depth (any fuel at least the tree depth
gives the full walk; the ignore property is proved for every fuel).  The
glob matcher `fnmatchcase(name, pattern)` is an imported library function
and is kept as a parameter `fnmatch`; the theorems hold for every matcher.
The `folders.sort()`/`indexed_files.sort()` calls only permute traversal
order and are omitted. -/

/-- `os.path.join(a, b)` for the relative paths the walk builds (with
`os.sep` already `'/'`). -/
def pjoin (a b : String) : String := if a = "" then b else a ++ "/" ++ b

/-- `_unignored_folders(folders, source_path, ignore_patterns, ignore_paths)`
from `build.py`. -/
def unignored_folders (fnmatch : String → String → Bool)
    (folders : List String) (source_path : String)
    (ignore_patterns ignore_paths : List String) : List String :=
  folders.filter fun folder =>
    !(ignore_patterns.any fun p => fnmatch folder p) &&
    !(ignore_paths.any fun p =>
        fnmatch ("/" ++ pjoin source_path folder ++ "/") p)

/-- A source tree: files with their `is_text` flag, and named subtrees. -/
inductive FSTree where
  | node : List (String × Bool) → List (String × FSTree) → FSTree

/-- The walk of `index_files`: the list of `path` values inserted into the
`files` table, starting from the relative path `rel`.  A file is inserted
when its bare name survives `ignore_patterns`, its `'/' + path` survives
`ignore_paths`, and it is a text file; the walk continues exactly into the
folders surviving `_unignored_folders`. -/
def walkTree (fnmatch : String → String → Bool)
    (pats paths : List String) : Nat → String → FSTree → List String
  | 0, _, _ => []
  | fuel + 1, rel, FSTree.node files folders =>
    ((files.filter fun f =>
        !(pats.any fun e => fnmatch f.1 e) &&
        !(paths.any fun e => fnmatch ("/" ++ pjoin rel f.1) e) &&
        f.2).map fun f => pjoin rel f.1) ++
    (folders.map fun fo =>
        if fo.1 ∈ unignored_folders fnmatch (folders.map Prod.fst) rel pats paths
        then walkTree fnmatch pats paths fuel (pjoin rel fo.1) fo.2
        else []).flatten

/-- `index_files`: the inserted paths of the whole tree (the walk starts at
the source root, whose relative path is the empty string). -/
def index_files (fnmatch : String → String → Bool)
    (pats paths : List String) (fuel : Nat) (tree : FSTree) : List String :=
  walkTree fnmatch pats paths fuel "" tree

/-- A path is reachable through unignored folders only: every folder on the
route fails all name-globs and all path-globs, and the file itself fails all
name-globs and all path-globs and is a text file. -/
inductive Reaches (fnmatch : String → String → Bool)
    (pats paths : List String) : String → FSTree → String → Prop where
  | file : ∀ (rel : String) (files : List (String × Bool))
      (folders : List (String × FSTree)) (f : String × Bool),
      f ∈ files →
      (pats.any fun e => fnmatch f.1 e) = false →
      (paths.any fun e => fnmatch ("/" ++ pjoin rel f.1) e) = false →
      f.2 = true →
      Reaches fnmatch pats paths rel (FSTree.node files folders) (pjoin rel f.1)
  | descend : ∀ (rel : String) (files : List (String × Bool))
      (folders : List (String × FSTree)) (nm : String) (sub : FSTree)
      (p : String),
      (nm, sub) ∈ folders →
      (pats.any fun q => fnmatch nm q) = false →
      (paths.any fun q => fnmatch ("/" ++ pjoin rel nm ++ "/") q) = false →
      Reaches fnmatch pats paths (pjoin rel nm) sub p →
      Reaches fnmatch pats paths rel (FSTree.node files folders) p

theorem walk_reaches (fnmatch : String → String → Bool)
    (pats paths : List String) :
    ∀ (fuel : Nat) (tree : FSTree) (rel p : String),
      p ∈ walkTree fnmatch pats paths fuel rel tree →
      Reaches fnmatch pats paths rel tree p := by
  intro fuel
  induction fuel with
  | zero =>
    intro tree rel p hp
    rw [walkTree] at hp
    cases hp
  | succ fuel ih =>
    intro tree rel p hp
    cases tree with
    | node files folders =>
      rw [walkTree] at hp
      rcases List.mem_append.mp hp with hf | hfo
      · rcases List.mem_map.mp hf with ⟨f, hfmem, hfp⟩
        have hfilt := List.mem_filter.mp hfmem
        have hcond := hfilt.2
        simp only [Bool.and_eq_true, Bool.not_eq_true'] at hcond
        rw [← hfp]
        exact Reaches.file rel files folders f hfilt.1 hcond.1.1 hcond.1.2 hcond.2
      · rcases List.mem_flatten.mp hfo with ⟨l, hl, hpl⟩
        rcases List.mem_map.mp hl with ⟨fo, hfomem, hfol⟩
        rcases fo with ⟨nm, sub⟩
        by_cases hin : nm ∈ unignored_folders fnmatch (folders.map Prod.fst)
            rel pats paths
        · have hfol2 : walkTree fnmatch pats paths fuel (pjoin rel nm) sub
              = l := by
            have hfol3 : (if nm ∈ unignored_folders fnmatch
                  (folders.map Prod.fst) rel pats paths
                then walkTree fnmatch pats paths fuel (pjoin rel nm) sub
                else []) = l := hfol
            rw [if_pos hin] at hfol3
            exact hfol3
          rw [← hfol2] at hpl
          have hcond := (List.mem_filter.mp hin).2
          simp only [Bool.and_eq_true, Bool.not_eq_true'] at hcond
          exact Reaches.descend rel files folders nm sub p hfomem hcond.1
            hcond.2 (ih sub (pjoin rel nm) p hpl)
        · have hfol2 : ([] : List String) = l := by
            have hfol3 : (if nm ∈ unignored_folders fnmatch
                  (folders.map Prod.fst) rel pats paths
                then walkTree fnmatch pats paths fuel (pjoin rel nm) sub
                else []) = l := hfol
            rw [if_neg hin] at hfol3
            exact hfol3
          rw [← hfol2] at hpl
          cases hpl

/-- **C8.**  For every matcher, ignore configuration, walk depth and source
tree, every path `index_files` inserts into the `files` table is reachable
through unignored folders only: the file's bare name matches no name-glob in
`ignore_patterns`, its path prefixed with `'/'` matches no path-glob in
`ignore_paths`, and every folder on the route matches no name-glob and no
folder-path-glob — so a file matching an ignore pattern is never inserted,
and nothing under an ignored folder is inserted. -/
theorem c8_index_files (fnmatch : String → String → Bool)
    (pats paths : List String) (fuel : Nat) (tree : FSTree) (p : String)
    (hp : p ∈ index_files fnmatch pats paths fuel tree) :
    Reaches fnmatch pats paths "" tree p :=
  walk_reaches fnmatch pats paths fuel tree "" p hp

/-- A concrete tree for the C8 witness. -/
def c8ExampleTree : FSTree :=
  FSTree.node [("a.txt", true), ("skip.txt", true)]
    [("sub", FSTree.node [("b.txt", true)] []),
     ("bad", FSTree.node [("c.txt", true)] [])]

/-- Witness for C8: an exact-match matcher, ignoring `skip.txt` and the
folder `bad`. -/
theorem c8_index_files_witness :
    Reaches (fun nm pat => nm = pat) ["skip.txt", "bad"] [] "" c8ExampleTree
      "a.txt" :=
  c8_index_files (fun nm pat => nm = pat) ["skip.txt", "bad"] [] 3
    c8ExampleTree "a.txt" (by decide)

/-! ### C2: `build_lines`

The full pipeline: plugin boundaries plus line boundaries, stably sorted by
the `nesting_order` key, overlap-filtered in place, balanced, and rendered
by `html_lines` over the decoded slicer.  `tags.sort(key=nesting_order)` is
a stable sort; it is modelled by a stable insertion sort over `tagLE`.  The
decoded byte slicer `decoded_slice` is modelled by `pySlice` over the
decoded text (character offsets). -/

/-- Insert a tag after every already-sorted tag that is `tagLE`-below-or-equal
it (keeping equal keys in arrival order, as Python's stable sort does). -/
def insortTag (t : Tag) : List Tag → List Tag
  | [] => [t]
  | u :: us => if tagLE u t then u :: insortTag t us else t :: u :: us

/-- Python's stable `tags.sort(key=nesting_order)`. -/
def sortTags (l : List Tag) : List Tag :=
  l.foldl (fun acc t => insortTag t acc) []

/-- `build_lines(text, htmlifiers)` from `build.py`: `none` models an
uncaught exception anywhere in the pipeline. -/
def build_lines (htmlifiers : List Htmlifier) (text : List Char) :
    Option (List (List Char)) :=
  (tag_boundaries htmlifiers).bind fun tags1 =>
    (remove_overlapping_refs (sortTags (tags1 ++ line_boundaries text))).bind
      fun tags2 =>
        (balanced_tags tags2).map fun fin => html_lines (pySlice text) fin

/-- **C2.**  The claim quantifies over every text, but `build_lines` crashes
on the empty text: there are no line boundaries and no well-formed plugin
intervals over an empty file, so `remove_overlapping_refs` receives the
empty tag list, its `enumerate(compress(...))` loop never binds `i`, and
`del tags[i + 1:]` raises `UnboundLocalError` — instead of yielding the
empty sequence of HTML lines the claim requires. -/
theorem c2_build_lines_empty_crash : build_lines [] [] = none := by
  rw [build_lines]
  have h1 : tag_boundaries [] = some [] := rfl
  rw [h1]
  simp only [Option.some_bind]
  have h2 : line_boundaries [] = [] := by
    rw [line_boundaries, splitlinesKeep, lineBoundsGo]
  rw [h2]
  rfl


end DXR
